import Mathlib

/-!
# Verification of the DDC batched spline solver core

This file gives a shallow embedding, over exact rationals, of the core of the
DDC spline library:

* `NonUniformBSplines::Impl` (knot construction, `find_cell`, `eval_basis`,
  `integrals`) from `include/ddc/kernels/splines/bsplines_non_uniform.hpp`;
* the periodic coefficient duplication at the end of
  `SplineBuilder::operator()` and the block-size computations from
  `include/ddc/kernels/splines/spline_builder.hpp`;
* the abstract `SplinesLinearProblem` contract and the Schur-complement
  2x2-block solver `SplinesLinearProblem2x2Blocks`.

`double` arithmetic is embedded as `ℚ` (the algebraic claims under scrutiny
are exact-arithmetic statements, qualified in the specification by "within
floating-point tolerance").  C++ `assert` preconditions are embedded by
returning `Option`/`Except` values: `none`/`.error` models an assertion
failure.  Opaque numeric primitives (dense/band LU factorisation and solve,
`KokkosBlas::gemm`) are embedded through their documented contracts.
-/

namespace DDC

/-! ## List helpers

The C++ code mutates raw buffers in loops of the shape
`for (i = 0; i < n; ++i) buf[p(i)] = f(i);`.  Buffers are embedded as
`List ℚ`, a single store as `List.set`, and a loop of stores as a `foldl`.
The lemmas below characterise reads (`List.getD`) after such loops.
-/

theorem getD_set_self {l : List ℚ} {i : ℕ} (h : i < l.length) (a d : ℚ) :
    (l.set i a).getD i d = a := by
  simp [List.getD_eq_getElem?_getD, List.getElem?_set_self h]

theorem getD_set_ne {l : List ℚ} {i j : ℕ} (h : i ≠ j) (a d : ℚ) :
    (l.set i a).getD j d = l.getD j d := by
  simp [List.getD_eq_getElem?_getD, List.getElem?_set_ne h]

/-- A loop of stores `for (i = 0; i < n; ++i) buf[p(i)] = f(i);` whose stored
values do not depend on the buffer. -/
def setFold (p : ℕ → ℕ) (f : ℕ → ℚ) (n : ℕ) (l : List ℚ) : List ℚ :=
  (List.range n).foldl (fun acc i => acc.set (p i) (f i)) l

@[simp]
theorem setFold_zero (p : ℕ → ℕ) (f : ℕ → ℚ) (l : List ℚ) :
    setFold p f 0 l = l := rfl

theorem setFold_succ (p : ℕ → ℕ) (f : ℕ → ℚ) (n : ℕ) (l : List ℚ) :
    setFold p f (n + 1) l = (setFold p f n l).set (p n) (f n) := by
  unfold setFold
  rw [List.range_succ, List.foldl_append]
  rfl

@[simp]
theorem setFold_length (p : ℕ → ℕ) (f : ℕ → ℚ) (n : ℕ) (l : List ℚ) :
    (setFold p f n l).length = l.length := by
  induction n with
  | zero => rfl
  | succ n ih => rw [setFold_succ, List.length_set, ih]

/-- A slot not targeted by any store of the loop is unchanged. -/
theorem setFold_getD_untouched {p : ℕ → ℕ} {f : ℕ → ℚ} {n : ℕ} {l : List ℚ}
    {k : ℕ} (h : ∀ i, i < n → p i ≠ k) (d : ℚ) :
    (setFold p f n l).getD k d = l.getD k d := by
  induction n with
  | zero => rfl
  | succ n ih =>
    rw [setFold_succ, getD_set_ne (h n (Nat.lt_succ_self n)),
      ih (fun i hi => h i (Nat.lt_succ_of_lt hi))]

/-- A slot whose last store in the loop is at step `i` holds `f i` afterwards. -/
theorem setFold_getD_written {p : ℕ → ℕ} {f : ℕ → ℚ} {n : ℕ} {l : List ℚ}
    {k i : ℕ} (hi : i < n) (hp : p i = k) (hk : k < l.length)
    (hlast : ∀ i', i < i' → i' < n → p i' ≠ k) (d : ℚ) :
    (setFold p f n l).getD k d = f i := by
  induction n with
  | zero => exact absurd hi (Nat.not_lt_zero i)
  | succ n ih =>
    rw [setFold_succ]
    rcases Nat.lt_or_ge i n with hin | hin
    · rw [getD_set_ne (hlast n hin (Nat.lt_succ_self n)),
        ih hin (fun i' h1 h2 => hlast i' h1 (Nat.lt_succ_of_lt h2))]
    · have : i = n := Nat.le_antisymm (Nat.lt_succ_iff.mp hi) hin
      subst this
      rw [hp, getD_set_self (by simpa using hk)]

/-! ## Non-uniform B-splines: data model and knot construction

Embedding of `NonUniformBSplines<Tag, D>::Impl`.  The static data of the
basis is its degree `D`, the periodicity flag of the tag, and the break
points passed to the constructor.  The constructor builds the knot vector
`knots` of length `npoints + 2*degree`; the knot of index
`k ∈ [-degree, ncells+degree]` (`get_knot(k)` in the source) lives at
position `k + degree` of that vector.
-/

structure NUB where
  /-- template parameter `D` (the degree); `static_assert(D > 0)` -/
  D : ℕ
  /-- Flag `Tag::PERIODIC`. -/
  periodic : Bool
  /-- the break points handed to the constructor -/
  breaks : List ℚ

/-- Source `npoints()`: number of break points (`m_nknots - 2*degree`). -/
def npoints (s : NUB) : ℕ := s.breaks.length

/-- Source `ncells()`: `npoints() - 1`. -/
def ncells (s : NUB) : ℕ := npoints s - 1

/-- Source `nbasis()`: `ncells() + !is_periodic() * degree()`. -/
def nbasis (s : NUB) : ℕ := ncells s + (if s.periodic then 0 else s.D)

/-- Source `size()`: `degree() + ncells()`. -/
def nubSize (s : NUB) : ℕ := s.D + ncells s

/-- First phase of the constructor: `std::vector<Coordinate> knots(n)` is
value-initialised (all zero), then the loop
`for (it = break_begin; it < break_end; ++it) knots[degree() + ii] = *it;`
fills the provided break points. -/
def fillBreaks (D : ℕ) (breaks : List ℚ) : List ℚ :=
  setFold (fun ii => D + ii) (fun ii => breaks.getD ii 0) breaks.length
    (List.replicate (breaks.length + 2 * D) 0)

/-- Periodic branch of the constructor loop
`for (i = 1; i < degree()+1; ++i) { knots[degree()+-i] = knots[degree()+ncells()-i] - period; knots[degree()+ncells()+i] = knots[degree()+i] + period; }`,
unrolled by iteration count: `periodicFill D nc period m ks` is the knot
vector after the iterations `i = 1, …, m`. -/
def periodicFill (D nc : ℕ) (period : ℚ) : ℕ → List ℚ → List ℚ
  | 0, ks => ks
  | m + 1, ks =>
    let ks' := periodicFill D nc period m ks
    let i := m + 1
    let ks'' := ks'.set (D - i) (ks'.getD (D + nc - i) 0 - period)
    ks''.set (D + nc + i) (ks''.getD (D + i) 0 + period)

/-- Open (non-periodic) branch of the constructor loop
`for (i = 1; i < degree()+1; ++i) { knots[degree()+-i] = rmin; knots[degree()+npoints()-1+i] = rmax; }`. -/
def openFill (D np : ℕ) (rmin rmax : ℚ) : ℕ → List ℚ → List ℚ
  | 0, ks => ks
  | m + 1, ks =>
    let ks' := openFill D np rmin rmax m ks
    let i := m + 1
    (ks'.set (D - i) rmin).set (D + np - 1 + i) rmax

/-- The whole knot vector built by the constructor
`NonUniformBSplines::Impl::Impl(RandomIt, RandomIt)`. -/
def knots (s : NUB) : List ℚ :=
  let base := fillBreaks s.D s.breaks
  let rmin := base.getD s.D 0
  let rmax := base.getD (s.breaks.length + s.D - 1) 0
  if s.periodic then
    periodicFill s.D (ncells s) (rmax - rmin) s.D base
  else
    openFill s.D (npoints s) rmin rmax s.D base

/-- Source `get_knot(knot_idx)`: coordinate of the knot of index
`knot_idx ∈ [-degree, ncells+degree]` (stored at `knot_idx + degree`). -/
def get_knot (s : NUB) (k : ℤ) : ℚ :=
  (knots s).getD (k + s.D).toNat 0

/-- Source `rmin()`: `get_knot(0)`. -/
def rmin (s : NUB) : ℚ := get_knot s 0

/-- Source `rmax()`: `get_knot(ncells())`. -/
def rmax (s : NUB) : ℚ := get_knot s (ncells s)

theorem fillBreaks_length (D : ℕ) (breaks : List ℚ) :
    (fillBreaks D breaks).length = breaks.length + 2 * D := by
  simp [fillBreaks]

theorem periodicFill_length (D nc : ℕ) (period : ℚ) (m : ℕ) (ks : List ℚ) :
    (periodicFill D nc period m ks).length = ks.length := by
  induction m with
  | zero => rfl
  | succ m ih => simp [periodicFill, ih]

theorem openFill_length (D np : ℕ) (rmin rmax : ℚ) (m : ℕ) (ks : List ℚ) :
    (openFill D np rmin rmax m ks).length = ks.length := by
  induction m with
  | zero => rfl
  | succ m ih => simp [openFill, ih]

theorem periodicFill_succ (D nc : ℕ) (period : ℚ) (m : ℕ) (ks : List ℚ) :
    periodicFill D nc period (m + 1) ks =
      ((periodicFill D nc period m ks).set (D - (m + 1))
        ((periodicFill D nc period m ks).getD (D + nc - (m + 1)) 0 - period)).set
        (D + nc + (m + 1))
        (((periodicFill D nc period m ks).set (D - (m + 1))
          ((periodicFill D nc period m ks).getD (D + nc - (m + 1)) 0 -
            period)).getD (D + (m + 1)) 0 + period) := rfl

theorem openFill_succ (D np : ℕ) (rmn rmx : ℚ) (m : ℕ) (ks : List ℚ) :
    openFill D np rmn rmx (m + 1) ks =
      ((openFill D np rmn rmx m ks).set (D - (m + 1)) rmn).set
        (D + np - 1 + (m + 1)) rmx := rfl

theorem knots_length (s : NUB) :
    (knots s).length = npoints s + 2 * s.D := by
  unfold knots
  by_cases hp : s.periodic <;>
    simp [hp, periodicFill_length, openFill_length, fillBreaks_length, npoints]

/-- Content of the knot vector after the first phase of the constructor:
break point `ii` at slot `D + ii`, zero elsewhere. -/
theorem fillBreaks_getD (D : ℕ) (breaks : List ℚ) (k : ℕ)
    (hk : k < breaks.length + 2 * D) :
    (fillBreaks D breaks).getD k 0 =
      if D ≤ k ∧ k < D + breaks.length then breaks.getD (k - D) 0 else 0 := by
  unfold fillBreaks
  split
  · next h =>
    rcases h with ⟨h1, h2⟩
    rw [setFold_getD_written (i := k - D) (by omega) (by omega) (by simp; omega)
      (fun i' hlt hup => by omega)]
  · next h =>
    rw [setFold_getD_untouched (fun i hi => by omega)]
    simp only [List.getD_eq_getElem?_getD, List.getElem?_replicate]
    split <;> simp

/-! ### Characterisation of the padding knots (constructor postcondition) -/

/-- Closed form of the periodic knot extension: index-periodic with period
`nc` in the index and `period` in the value. -/
def periodicKnotExt (breaks : List ℚ) (nc : ℕ) (period : ℚ) (k : ℤ) : ℚ :=
  breaks.getD (k % nc).toNat 0 + ((k / nc : ℤ) : ℚ) * period

theorem periodicKnotExt_shift (breaks : List ℚ) {nc : ℕ} (period : ℚ)
    (hnc : 1 ≤ nc) (k : ℤ) :
    periodicKnotExt breaks nc period (k + nc) =
      periodicKnotExt breaks nc period k + period := by
  have h : (nc : ℤ) ≠ 0 := by omega
  unfold periodicKnotExt
  have h1 : (k + (nc : ℤ)) % nc = k % nc := by
    conv_lhs => rw [show k + (nc : ℤ) = k + (nc : ℤ) * 1 by ring]
    exact Int.add_mul_emod_self_left k nc 1
  have h2 : (k + (nc : ℤ)) / nc = k / nc + 1 := by
    conv_lhs => rw [show k + (nc : ℤ) = k + 1 * nc by ring]
    exact Int.add_mul_ediv_right k 1 h
  rw [h1, h2]
  push_cast
  ring

theorem periodicKnotExt_of_le {breaks : List ℚ} {nc : ℕ} {period : ℚ}
    (hnc : 1 ≤ nc)
    (hper : period = breaks.getD nc 0 - breaks.getD 0 0)
    {k : ℤ} (h0 : 0 ≤ k) (h1 : k ≤ nc) :
    periodicKnotExt breaks nc period k = breaks.getD k.toNat 0 := by
  rcases lt_or_eq_of_le h1 with hlt | heq
  · unfold periodicKnotExt
    rw [Int.emod_eq_of_lt h0 hlt, Int.ediv_eq_zero_of_lt h0 hlt]
    simp
  · subst heq
    unfold periodicKnotExt
    rw [Int.emod_self, Int.ediv_self (by omega : (nc : ℤ) ≠ 0)]
    simp [hper]

/-- State of the knot vector after the first `m` iterations of the periodic
padding loop: every knot of index `k ∈ [-m, ncells + m]` agrees with the
periodic extension of the break points. -/
theorem periodicFill_getD (D nc : ℕ) (breaks : List ℚ) (period : ℚ)
    (hnc : 1 ≤ nc) (hnp : breaks.length = nc + 1)
    (hper : period = breaks.getD nc 0 - breaks.getD 0 0) :
    ∀ m, m ≤ D → ∀ k : ℤ, -(m : ℤ) ≤ k → k ≤ (nc : ℤ) + m →
      (periodicFill D nc period m (fillBreaks D breaks)).getD (k + D).toNat 0 =
        periodicKnotExt breaks nc period k := by
  have hlen : (fillBreaks D breaks).length = nc + 1 + 2 * D := by
    rw [fillBreaks_length, hnp]
  intro m
  induction m with
  | zero =>
    intro _ k h0 h1
    simp only [Nat.cast_zero, neg_zero] at h0
    simp only [Nat.cast_zero, add_zero] at h1
    show (fillBreaks D breaks).getD (k + D).toNat 0 = _
    rw [fillBreaks_getD D breaks (k + D).toNat (by omega)]
    rw [if_pos (by omega)]
    rw [periodicKnotExt_of_le hnc hper h0 h1]
    congr 1
    omega
  | succ m ih =>
    intro hm k h0 h1
    have ihm := ih (by omega)
    have hlenL : (periodicFill D nc period m (fillBreaks D breaks)).length =
        nc + 1 + 2 * D := by rw [periodicFill_length, hlen]
    have hv1 :
        (periodicFill D nc period m (fillBreaks D breaks)).getD
          (D + nc - (m + 1)) 0 - period =
          periodicKnotExt breaks nc period (-(m + 1 : ℕ)) := by
      have hidx : (D + nc - (m + 1) : ℕ) =
          (((nc : ℤ) - (m + 1)) + D).toNat := by omega
      rw [hidx, ihm ((nc : ℤ) - (m + 1)) (by omega) (by omega)]
      have := periodicKnotExt_shift breaks period hnc (-(m + 1 : ℕ))
      have harg : (-(m + 1 : ℕ) : ℤ) + nc = (nc : ℤ) - (m + 1) := by
        push_cast; ring
      rw [harg] at this
      rw [this]
      ring_nf
    have hv2 :
        (periodicFill D nc period m (fillBreaks D breaks)).getD
          (D + (m + 1)) 0 + period =
          periodicKnotExt breaks nc period ((nc : ℤ) + (m + 1)) := by
      have hidx : (D + (m + 1) : ℕ) = (((m : ℤ) + 1) + D).toNat := by omega
      rw [hidx, ihm ((m : ℤ) + 1) (by omega) (by omega)]
      have := periodicKnotExt_shift breaks period hnc ((m : ℤ) + 1)
      have harg : ((m : ℤ) + 1) + nc = (nc : ℤ) + (m + 1) := by ring
      rw [harg] at this
      rw [this]
    rw [periodicFill_succ]
    have hread2 :
        (((periodicFill D nc period m (fillBreaks D breaks)).set (D - (m + 1))
          ((periodicFill D nc period m (fillBreaks D breaks)).getD
            (D + nc - (m + 1)) 0 - period))).getD (D + (m + 1)) 0 =
          (periodicFill D nc period m (fillBreaks D breaks)).getD
            (D + (m + 1)) 0 := by
      exact getD_set_ne (by omega) _ _
    rcases eq_or_lt_of_le h1 with hk2 | h1'
    · -- k = nc + (m+1): the second store of the iteration
      have hk2' : k = (nc : ℤ) + ((m : ℤ) + 1) := by rw [hk2]; push_cast; ring
      subst hk2'
      have hidx : ((nc : ℤ) + ((m : ℤ) + 1) + D).toNat = D + nc + (m + 1) := by
        omega
      rw [hidx, getD_set_self (by simp [hlenL]; omega), hread2, hv2]
    · rcases eq_or_lt_of_le h0 with hk1 | h0'
      · -- k = -(m+1): the first store of the iteration
        have hk1' : k = -((m + 1 : ℕ) : ℤ) := by omega
        subst hk1'
        have hidx : ((-((m + 1 : ℕ) : ℤ)) + D).toNat = D - (m + 1) := by
          push_cast; omega
        rw [hidx, getD_set_ne (by omega), getD_set_self (by simp [hlenL]; omega),
          hv1]
      · -- interior of the already-established range: both stores miss it
        rw [getD_set_ne (by omega), getD_set_ne (by omega)]
        exact ihm k (by omega) (by omega)

/-- State of the knot vector after the first `m` iterations of the open
(non-periodic) padding loop. -/
theorem openFill_getD (D np : ℕ) (rmn rmx : ℚ) (base : List ℚ)
    (hlen : base.length = np + 2 * D) (hnp : 1 ≤ np) :
    ∀ m, m ≤ D → ∀ j : ℕ, j < np + 2 * D →
      (openFill D np rmn rmx m base).getD j 0 =
        if D - m ≤ j ∧ j < D then rmn
        else if D + np ≤ j ∧ j < D + np + m then rmx
        else base.getD j 0 := by
  intro m
  induction m with
  | zero =>
    intro _ j hj
    simp only [openFill]
    rw [if_neg (by omega), if_neg (by omega)]
  | succ m ih =>
    intro hm j hj
    have ihm := ih (by omega)
    have hlenL : (openFill D np rmn rmx m base).length = np + 2 * D := by
      rw [openFill_length, hlen]
    rw [openFill_succ]
    by_cases hj2 : j = D + np - 1 + (m + 1)
    · subst hj2
      rw [getD_set_self (by simp [hlenL]; omega)]
      rw [if_neg (by omega), if_pos (by omega)]
    · rw [getD_set_ne (Ne.symm hj2)]
      by_cases hj1 : j = D - (m + 1)
      · subst hj1
        rcases Nat.lt_or_ge (D - (m + 1)) D with hD | hD
        · rw [getD_set_self (by simp [hlenL]; omega), if_pos (by omega)]
        · -- only possible when m + 1 > D, excluded by `hm`
          omega
      · rw [getD_set_ne (Ne.symm hj1), ihm j hj]
        by_cases c1 : D - m ≤ j ∧ j < D
        · rw [if_pos c1, if_pos (by omega)]
        · by_cases c2 : D + np ≤ j ∧ j < D + np + m
          · rw [if_neg c1, if_pos c2, if_neg (by omega), if_pos (by omega)]
          · rw [if_neg c1, if_neg c2, if_neg (by omega), if_neg (by omega)]

/-- In the periodic case, every knot (padding included) agrees with the
periodic extension of the break points. -/
theorem get_knot_periodic (s : NUB) (hp : s.periodic = true)
    (hnp : 2 ≤ s.breaks.length) {k : ℤ} (h1 : -(s.D : ℤ) ≤ k)
    (h2 : k ≤ (ncells s : ℤ) + s.D) :
    get_knot s k =
      periodicKnotExt s.breaks (ncells s)
        (s.breaks.getD (ncells s) 0 - s.breaks.getD 0 0) k := by
  have hnc : 1 ≤ ncells s := by simp only [ncells, npoints]; omega
  have hnp' : s.breaks.length = ncells s + 1 := by
    simp only [ncells, npoints]; omega
  have hr0 : (fillBreaks s.D s.breaks).getD s.D 0 = s.breaks.getD 0 0 := by
    rw [fillBreaks_getD s.D s.breaks s.D (by omega), if_pos (by omega)]
    simp
  have hr1 : (fillBreaks s.D s.breaks).getD (s.breaks.length + s.D - 1) 0 =
      s.breaks.getD (ncells s) 0 := by
    rw [fillBreaks_getD s.D s.breaks _ (by omega), if_pos (by omega)]
    congr 1
    omega
  unfold get_knot knots
  simp only [hp, if_true]
  rw [hr0, hr1]
  exact periodicFill_getD s.D (ncells s) s.breaks _ hnc hnp' rfl s.D le_rfl k h1 h2

/-- In the open (non-periodic) case, the padding knots repeat the boundary
values and the interior knots are the break points. -/
theorem get_knot_open (s : NUB) (hp : s.periodic = false)
    (hnp : 2 ≤ s.breaks.length) {k : ℤ} (h1 : -(s.D : ℤ) ≤ k)
    (h2 : k ≤ (ncells s : ℤ) + s.D) :
    get_knot s k =
      if k < 0 then s.breaks.getD 0 0
      else if (ncells s : ℤ) < k then s.breaks.getD (ncells s) 0
      else s.breaks.getD k.toNat 0 := by
  have hnp0 : npoints s = s.breaks.length := rfl
  have hnc0 : ncells s = s.breaks.length - 1 := rfl
  have hr0 : (fillBreaks s.D s.breaks).getD s.D 0 = s.breaks.getD 0 0 := by
    rw [fillBreaks_getD s.D s.breaks s.D (by omega), if_pos (by omega)]
    simp
  have hr1 : (fillBreaks s.D s.breaks).getD (s.breaks.length + s.D - 1) 0 =
      s.breaks.getD (ncells s) 0 := by
    rw [fillBreaks_getD s.D s.breaks _ (by omega), if_pos (by omega)]
    congr 1
    omega
  unfold get_knot knots
  simp only [hp, Bool.false_eq_true, if_false]
  rw [hr0, hr1]
  rw [openFill_getD s.D (npoints s) _ _ _ (fillBreaks_length s.D s.breaks)
    (by omega) s.D le_rfl (k + s.D).toNat (by omega)]
  rcases lt_trichotomy k 0 with hk | hk | hk
  · rw [if_pos (by omega), if_pos hk]
  · subst hk
    rw [if_neg (by omega), if_neg (by omega),
      fillBreaks_getD s.D s.breaks _ (by omega),
      if_pos (by omega), if_neg (by omega), if_neg (by omega)]
    simp
  · rw [if_neg (by omega), if_neg hk.not_lt]
    by_cases hk2 : (ncells s : ℤ) < k
    · rw [if_pos (by omega), if_pos hk2]
    · rw [if_neg (by omega), if_neg hk2,
        fillBreaks_getD s.D s.breaks _ (by omega), if_pos (by omega)]
      congr 1
      omega

/-- Claim **C6**: the `NonUniformBSplines::Impl` constructor generates exactly
`degree` padding knots on each side of the provided break points: in the
periodic case `knot[-i] = knot[ncells - i] - period` and
`knot[ncells + i] = knot[i] + period` for `i ∈ [1, degree]` with
`period = rmax - rmin`, while in the open case the padding knots before
`rmin` all equal `rmin` and the padding knots after `rmax` all equal
`rmax`. -/
theorem C6_constructor_padding_knots (s : NUB) (hnp : 2 ≤ s.breaks.length) :
    (s.periodic = true → ∀ i : ℕ, 1 ≤ i → i ≤ s.D →
      get_knot s (-(i : ℤ)) =
          get_knot s ((ncells s : ℤ) - i) - (rmax s - rmin s) ∧
      get_knot s ((ncells s : ℤ) + i) =
          get_knot s (i : ℤ) + (rmax s - rmin s)) ∧
    (s.periodic = false → ∀ i : ℕ, 1 ≤ i → i ≤ s.D →
      get_knot s (-(i : ℤ)) = rmin s ∧
      get_knot s ((ncells s : ℤ) + i) = rmax s) := by
  have hnc : 1 ≤ ncells s := by simp only [ncells, npoints]; omega
  constructor
  · intro hp i hi1 hi2
    have hper :
        rmax s - rmin s = s.breaks.getD (ncells s) 0 - s.breaks.getD 0 0 := by
      unfold rmax rmin
      rw [get_knot_periodic s hp hnp (by omega) (by omega),
        get_knot_periodic s hp hnp (by omega) (by omega),
        periodicKnotExt_of_le hnc rfl (by omega) (by omega),
        periodicKnotExt_of_le hnc rfl (by omega) (by omega)]
      simp
    have hshift := periodicKnotExt_shift s.breaks
      (s.breaks.getD (ncells s) 0 - s.breaks.getD 0 0) hnc
    constructor
    · rw [get_knot_periodic s hp hnp (k := -(i : ℤ)) (by omega) (by omega),
        get_knot_periodic s hp hnp (k := (ncells s : ℤ) - i) (by omega)
          (by omega), hper]
      have := hshift (-(i : ℤ))
      rw [show (-(i : ℤ) + ncells s) = (ncells s : ℤ) - i by ring] at this
      rw [this]
      ring
    · rw [get_knot_periodic s hp hnp (k := (ncells s : ℤ) + i) (by omega)
          (by omega),
        get_knot_periodic s hp hnp (k := (i : ℤ)) (by omega) (by omega), hper]
      have := hshift (i : ℤ)
      rw [show ((i : ℤ) + ncells s) = (ncells s : ℤ) + i by ring] at this
      rw [this]
  · intro hp i hi1 hi2
    have hrmn : rmin s = s.breaks.getD 0 0 := by
      unfold rmin
      rw [get_knot_open s hp hnp (by omega) (by omega), if_neg (by omega),
        if_neg (by omega)]
      simp
    have hrmx : rmax s = s.breaks.getD (ncells s) 0 := by
      unfold rmax
      rw [get_knot_open s hp hnp (by omega) (by omega), if_neg (by omega),
        if_neg (by omega)]
      simp
    constructor
    · rw [get_knot_open s hp hnp (by omega) (by omega), if_pos (by omega), hrmn]
    · rw [get_knot_open s hp hnp (by omega) (by omega), if_neg (by omega),
        if_pos (by omega), hrmx]

/-! ## `find_cell` and `eval_basis`

The knot-sequence invariants documented in the data model: the knot vector is
strictly increasing on the interior segment, and the padding knots preserve
monotonicity.
-/

/-- Strictly increasing interior knots (break points). -/
def InteriorStrict (s : NUB) : Prop :=
  ∀ k : ℕ, k < ncells s → get_knot s (k : ℤ) < get_knot s ((k : ℤ) + 1)

/-- The whole knot vector (padding included) is nondecreasing. -/
def KnotsNondecreasing (s : NUB) : Prop :=
  ∀ j : ℕ, j + 1 < (knots s).length →
    (knots s).getD j 0 ≤ (knots s).getD (j + 1) 0

instance (s : NUB) : Decidable (InteriorStrict s) := by
  unfold InteriorStrict
  infer_instance

instance (s : NUB) : Decidable (KnotsNondecreasing s) :=
  decidable_of_iff
    (∀ j, j < (knots s).length → j + 1 < (knots s).length →
      (knots s).getD j 0 ≤ (knots s).getD (j + 1) 0)
    ⟨fun h j hj => h j (by omega) hj, fun h j _ hj2 => h j hj2⟩

theorem interior_strict_chain {s : NUB} (hs : InteriorStrict s) {a b : ℕ}
    (hab : a < b) (hb : b ≤ ncells s) :
    get_knot s (a : ℤ) < get_knot s (b : ℤ) := by
  induction b with
  | zero => omega
  | succ b ih =>
    have hsb : get_knot s (b : ℤ) < get_knot s ((b + 1 : ℕ) : ℤ) := by
      have := hs b (by omega)
      push_cast
      push_cast at this
      exact this
    rcases Nat.lt_succ_iff_lt_or_eq.mp hab with h | h
    · exact lt_trans (ih h (by omega)) hsb
    · subst h
      exact hsb

theorem getD_chain {l : List ℚ}
    (h : ∀ j, j + 1 < l.length → l.getD j 0 ≤ l.getD (j + 1) 0) :
    ∀ j, j < l.length → ∀ i, i ≤ j → l.getD i 0 ≤ l.getD j 0 := by
  intro j
  induction j with
  | zero =>
    intro _ i hi
    have hi0 : i = 0 := Nat.le_zero.mp hi
    rw [hi0]
  | succ j ih =>
    intro hj i hi
    rcases Nat.lt_succ_iff_lt_or_eq.mp (Nat.lt_succ_of_le hi) with hlt | heq
    · exact le_trans (ih (by omega) i (by omega)) (h j (by omega))
    · rw [heq]

theorem get_knot_mono {s : NUB} (h : KnotsNondecreasing s)
    (hnp : 2 ≤ s.breaks.length) {a b : ℤ} (ha : -(s.D : ℤ) ≤ a) (hab : a ≤ b)
    (hb : b ≤ (ncells s : ℤ) + s.D) :
    get_knot s a ≤ get_knot s b := by
  have hlen : (knots s).length = s.breaks.length + 2 * s.D := by
    rw [knots_length]; rfl
  have hnc0 : ncells s = s.breaks.length - 1 := rfl
  unfold get_knot
  exact getD_chain h (b + s.D).toNat (by omega) (a + s.D).toNat (by omega)

/-- The binary-search loop of `find_cell`
(`while (x < get_knot(icell) || x >= get_knot(icell+1)) …`).  The loop is
embedded with an explicit iteration bound to make the recursion structural;
on a strictly increasing knot vector the loop exits within `high - low`
iterations, so a bound of `ncells` is never reached (proved below). -/
def findCellLoop (s : NUB) (x : ℚ) : ℕ → ℕ → ℕ → ℕ
  | 0, low, high => (low + high) / 2
  | fuel + 1, low, high =>
    let icell := (low + high) / 2
    if x < get_knot s (icell : ℤ) then findCellLoop s x fuel low icell
    else if get_knot s ((icell : ℤ) + 1) ≤ x then findCellLoop s x fuel icell high
    else icell

theorem findCellLoop_succ (s : NUB) (x : ℚ) (fuel low high : ℕ) :
    findCellLoop s x (fuel + 1) low high =
      if x < get_knot s (((low + high) / 2 : ℕ) : ℤ) then
        findCellLoop s x fuel low ((low + high) / 2)
      else if get_knot s ((((low + high) / 2 : ℕ) : ℤ) + 1) ≤ x then
        findCellLoop s x fuel ((low + high) / 2) high
      else (low + high) / 2 := rfl

/-- Source `NonUniformBSplines::Impl::find_cell`. -/
def find_cell (s : NUB) (x : ℚ) : ℤ :=
  if rmax s < x then -1
  else if x < rmin s then -1
  else if x = rmin s then 0
  else if x = rmax s then (ncells s : ℤ) - 1
  else (findCellLoop s x (ncells s) 0 (ncells s) : ℤ)

/-- Correctness of the binary-search loop: starting from a bracketing
interval it returns a cell index bracketing `x`. -/
theorem findCellLoop_spec {s : NUB} {x : ℚ} (hs : InteriorStrict s) :
    ∀ fuel low high, low < high → high ≤ ncells s → high - low ≤ fuel →
      get_knot s (low : ℤ) ≤ x → x < get_knot s (high : ℤ) →
      low ≤ findCellLoop s x fuel low high ∧
      findCellLoop s x fuel low high < high ∧
      get_knot s (findCellLoop s x fuel low high : ℤ) ≤ x ∧
      x < get_knot s ((findCellLoop s x fuel low high : ℤ) + 1) := by
  intro fuel
  induction fuel with
  | zero => intro low high h1 _ h3 _ _; omega
  | succ fuel ih =>
    intro low high h1 h2 h3 hlow hhigh
    rw [findCellLoop_succ]
    by_cases c1 : x < get_knot s (((low + high) / 2 : ℕ) : ℤ)
    · -- descend into the left half
      have hne : low < (low + high) / 2 := by
        rcases Nat.lt_or_ge low ((low + high) / 2) with h | h
        · exact h
        · have heq : (low + high) / 2 = low := by omega
          rw [heq] at c1
          exact absurd hlow (not_le.mpr c1)
      have hrec := ih low ((low + high) / 2) hne (by omega) (by omega) hlow c1
      rw [if_pos c1]
      exact ⟨hrec.1, by omega, hrec.2.2.1, hrec.2.2.2⟩
    · by_cases c2 : get_knot s ((((low + high) / 2 : ℕ) : ℤ) + 1) ≤ x
      · -- descend into the right half
        have hmidhi : (low + high) / 2 < high := by omega
        have hne : (low + high) / 2 + 1 < high := by
          rcases Nat.lt_or_ge ((low + high) / 2 + 1) high with h | h
          · exact h
          · have heq : (low + high) / 2 + 1 = high := by omega
            rw [show ((((low + high) / 2 : ℕ) : ℤ) + 1) =
              (((low + high) / 2 + 1 : ℕ) : ℤ) by push_cast; ring, heq] at c2
            exact absurd hhigh (not_lt.mpr c2)
        have hmidknot : get_knot s (((low + high) / 2 : ℕ) : ℤ) ≤ x := by
          refine le_trans (le_of_lt ?_) c2
          exact hs ((low + high) / 2) (by omega)
        have hrec := ih ((low + high) / 2) high (by omega) h2 (by omega)
          hmidknot hhigh
        rw [if_neg c1, if_pos c2]
        exact ⟨by omega, hrec.2.1, hrec.2.2.1, hrec.2.2.2⟩
      · -- loop condition fails: the current cell brackets x
        rw [if_neg c1, if_neg c2]
        exact ⟨by omega, by omega, not_lt.mp c1, not_le.mp c2⟩

/-! ### Cox–de Boor recurrence (`eval_basis`)

The triangular recurrence of `eval_basis`:
```
values[0] = 1.0;
for (j = 0; j < degree(); ++j) {
    left[j]  = x - get_knot(icell - j);
    right[j] = get_knot(icell + j + 1) - x;
    saved = 0.0;
    for (r = 0; r < j + 1; ++r) {
        temp = values[r] / (right[r] + left[j - r]);
        values[r] = saved + right[r] * temp;
        saved = left[j - r] * temp;
    }
    values[j + 1] = saved;
}
```
`left[j]`/`right[j]` are written once (at outer iteration `j`) and never
change afterwards, so they are embedded as the pure functions `left`/`right`;
`cdbInner` is the inner loop over `r` (the list argument holds
`values[r..j]`, the accumulator `saved`), and `cdbOuter j` is the contents
`values[0..j]` after `j` outer iterations. -/

def cdbInner (left right : ℕ → ℚ) (j : ℕ) : ℕ → ℚ → List ℚ → List ℚ
  | _, saved, [] => [saved]
  | r, saved, v :: vs =>
    let temp := v / (right r + left (j - r))
    (saved + right r * temp) :: cdbInner left right j (r + 1) (left (j - r) * temp) vs

def cdbOuter (left right : ℕ → ℚ) : ℕ → List ℚ
  | 0 => [1]
  | j + 1 => cdbInner left right j 0 0 (cdbOuter left right j)

/-- The `degree+1` basis values written by `eval_basis` into `values`. -/
def eval_basis_values (s : NUB) (icell : ℤ) (x : ℚ) : List ℚ :=
  cdbOuter (fun j => x - get_knot s (icell - j))
    (fun j => get_knot s (icell + j + 1) - x) s.D

/-- Source `NonUniformBSplines::Impl::eval_basis`.  The `assert`s of the source
(`x >= rmin()`, `x <= rmax()`, `icell >= 0`, `icell <= ncells()-1`,
`get_knot(icell) <= x`, `get_knot(icell+1) >= x`) are embedded as `Option`
guards: `none` models an assertion failure. -/
def eval_basis (s : NUB) (x : ℚ) : Option (ℤ × List ℚ) :=
  if ¬ (rmin s ≤ x) then none
  else if ¬ (x ≤ rmax s) then none
  else
    let icell := find_cell s x
    if ¬ (0 ≤ icell) then none
    else if ¬ (icell ≤ (ncells s : ℤ) - 1) then none
    else if ¬ (get_knot s icell ≤ x) then none
    else if ¬ (x ≤ get_knot s (icell + 1)) then none
    else some (icell, eval_basis_values s icell x)

theorem cdbInner_length (left right : ℕ → ℚ) (j : ℕ) :
    ∀ (vs : List ℚ) (r : ℕ) (saved : ℚ),
      (cdbInner left right j r saved vs).length = vs.length + 1 := by
  intro vs
  induction vs with
  | nil => intro r saved; rfl
  | cons v vs ih =>
    intro r saved
    show (_ :: cdbInner left right j (r + 1) _ vs).length = _
    rw [List.length_cons, ih]
    rfl

theorem cdbOuter_length (left right : ℕ → ℚ) (j : ℕ) :
    (cdbOuter left right j).length = j + 1 := by
  induction j with
  | zero => rfl
  | succ j ih =>
    show (cdbInner left right j 0 0 (cdbOuter left right j)).length = _
    rw [cdbInner_length, ih]

/-- Telescoping sum of one inner iteration: when no denominator of this
sweep vanishes, the new values sum to `saved` plus the old sum. -/
theorem cdbInner_sum (left right : ℕ → ℚ) (j : ℕ) :
    ∀ (vs : List ℚ) (r : ℕ) (saved : ℚ),
      (∀ p, r ≤ p → p < r + vs.length → right p + left (j - p) ≠ 0) →
      (cdbInner left right j r saved vs).sum = saved + vs.sum := by
  intro vs
  induction vs with
  | nil =>
    intro r saved _
    show List.sum [saved] = saved + List.sum []
    simp
  | cons v vs ih =>
    intro r saved hden
    show ((saved + right r * (v / (right r + left (j - r)))) ::
      cdbInner left right j (r + 1) (left (j - r) * (v / (right r + left (j - r)))) vs).sum = _
    rw [List.sum_cons,
      ih (r + 1) _ (fun p h1 h2 => hden p (by omega) (by simp at h2 ⊢; omega))]
    have hd : right r + left (j - r) ≠ 0 :=
      hden r le_rfl (by simp)
    field_simp
    ring

/-- Partition of unity for the triangular recurrence: if no denominator
vanishes, the values after `d` outer iterations sum to 1. -/
theorem cdbOuter_sum (left right : ℕ → ℚ) (d : ℕ)
    (hden : ∀ j, j < d → ∀ p, p ≤ j → right p + left (j - p) ≠ 0) :
    (cdbOuter left right d).sum = 1 := by
  induction d with
  | zero => simp [cdbOuter]
  | succ d ih =>
    show (cdbInner left right d 0 0 (cdbOuter left right d)).sum = 1
    rw [cdbInner_sum left right d (cdbOuter left right d) 0 0
      (fun p h1 h2 => hden d (by omega) p
        (by rw [cdbOuter_length] at h2; omega)),
      ih (fun j hj p hp => hden j (by omega) p hp)]
    simp

theorem rmin_lt_rmax {s : NUB} (hs : InteriorStrict s)
    (hnp : 2 ≤ s.breaks.length) : rmin s < rmax s := by
  have hnc : 1 ≤ ncells s := by
    have : ncells s = s.breaks.length - 1 := rfl
    omega
  have := interior_strict_chain hs (a := 0) (b := ncells s) hnc le_rfl
  simpa [rmin, rmax] using this

/-- Behaviour of `find_cell` on a coordinate strictly inside the domain: the returned
cell index brackets `x` (with strict upper inequality). -/
theorem find_cell_inside {s : NUB} {x : ℚ} (hs : InteriorStrict s)
    (hnp : 2 ≤ s.breaks.length) (h1 : rmin s < x) (h2 : x < rmax s) :
    0 ≤ find_cell s x ∧ find_cell s x ≤ (ncells s : ℤ) - 1 ∧
    get_knot s (find_cell s x) ≤ x ∧ x < get_knot s (find_cell s x + 1) := by
  have hnc : 1 ≤ ncells s := by
    have : ncells s = s.breaks.length - 1 := rfl
    omega
  unfold find_cell
  rw [if_neg (not_lt.mpr (le_of_lt h2)), if_neg (not_lt.mpr (le_of_lt h1)),
    if_neg (fun h => absurd h (by exact fun h => absurd (h ▸ h1) (lt_irrefl _))),
    if_neg (fun h => absurd (h ▸ h2) (lt_irrefl _))]
  have hloop := findCellLoop_spec hs (ncells s) 0 (ncells s) hnc le_rfl
    (by omega) (by simpa [rmin] using le_of_lt h1) (by simpa [rmax] using h2)
  obtain ⟨ha, hb, hc, hd⟩ := hloop
  refine ⟨by positivity, by omega, hc, ?_⟩
  exact hd

/-- Behaviour of `find_cell` over the whole domain `[rmin, rmax]` (weak bracketing,
matching the `assert`s of `eval_basis`). -/
theorem find_cell_spec {s : NUB} {x : ℚ} (hs : InteriorStrict s)
    (hnp : 2 ≤ s.breaks.length) (h1 : rmin s ≤ x) (h2 : x ≤ rmax s) :
    0 ≤ find_cell s x ∧ find_cell s x ≤ (ncells s : ℤ) - 1 ∧
    get_knot s (find_cell s x) ≤ x ∧ x ≤ get_knot s (find_cell s x + 1) := by
  have hnc : 1 ≤ ncells s := by
    have : ncells s = s.breaks.length - 1 := rfl
    omega
  by_cases hmin : x = rmin s
  · have hfc : find_cell s x = 0 := by
      unfold find_cell
      rw [if_neg (not_lt.mpr h2), if_neg (not_lt.mpr h1), if_pos hmin]
    rw [hfc]
    refine ⟨le_rfl, by omega, by rw [hmin]; exact le_rfl, ?_⟩
    rw [hmin]
    have := interior_strict_chain hs (a := 0) (b := 1) one_pos (by omega)
    simpa [rmin] using le_of_lt this
  · by_cases hmax : x = rmax s
    · have hfc : find_cell s x = (ncells s : ℤ) - 1 := by
        unfold find_cell
        rw [if_neg (not_lt.mpr h2), if_neg (not_lt.mpr h1), if_neg hmin,
          if_pos hmax]
      rw [hfc]
      have hchain := interior_strict_chain hs (a := ncells s - 1)
        (b := ncells s) (by omega) le_rfl
      have hcast : ((ncells s - 1 : ℕ) : ℤ) = (ncells s : ℤ) - 1 := by omega
      rw [hcast] at hchain
      refine ⟨by omega, le_rfl, ?_, ?_⟩
      · rw [hmax]
        exact le_of_lt hchain
      · rw [hmax, show (ncells s : ℤ) - 1 + 1 = (ncells s : ℤ) by ring]
        exact le_rfl
    · have h1' : rmin s < x := lt_of_le_of_ne h1 (fun h => hmin h.symm)
      have h2' : x < rmax s := lt_of_le_of_ne h2 hmax
      obtain ⟨ha, hb, hc, hd⟩ := find_cell_inside hs hnp h1' h2'
      exact ⟨ha, hb, hc, le_of_lt hd⟩

/-- Claim **C5**: `eval_basis` locates the containing cell by binary search;
`x = rmin` gives cell `0`, `x = rmax` gives cell `ncells - 1`, a coordinate
strictly inside gives the cell with `knot[icell] ≤ x < knot[icell+1]`, and a
coordinate outside `[rmin, rmax]` makes `find_cell` return `-1` and
`eval_basis` fail its precondition (`none`). -/
theorem C5_find_cell_cells (s : NUB) (x : ℚ) (hs : InteriorStrict s)
    (hnp : 2 ≤ s.breaks.length) :
    (x = rmin s → find_cell s x = 0) ∧
    (x = rmax s → find_cell s x = (ncells s : ℤ) - 1) ∧
    (rmin s < x → x < rmax s →
      0 ≤ find_cell s x ∧ find_cell s x ≤ (ncells s : ℤ) - 1 ∧
      get_knot s (find_cell s x) ≤ x ∧ x < get_knot s (find_cell s x + 1)) ∧
    ((x < rmin s ∨ rmax s < x) → find_cell s x = -1 ∧ eval_basis s x = none) := by
  have hlt := rmin_lt_rmax hs hnp
  refine ⟨?_, ?_, fun hx1 hx2 => find_cell_inside hs hnp hx1 hx2, ?_⟩
  · intro hmin
    subst hmin
    unfold find_cell
    rw [if_neg (not_lt.mpr (le_of_lt hlt)), if_neg (lt_irrefl _), if_pos rfl]
  · intro hmax
    subst hmax
    unfold find_cell
    rw [if_neg (lt_irrefl _), if_neg (not_lt.mpr (le_of_lt hlt)),
      if_neg (ne_of_gt hlt), if_pos rfl]
  · intro hout
    rcases hout with hout | hout
    · constructor
      · unfold find_cell
        rw [if_neg (not_lt.mpr (le_of_lt (lt_trans hout hlt))), if_pos hout]
      · unfold eval_basis
        rw [if_pos (not_le.mpr hout)]
    · constructor
      · unfold find_cell
        rw [if_pos hout]
      · unfold eval_basis
        rw [if_neg (not_not_intro (le_of_lt (lt_trans hlt hout))),
          if_pos (not_le.mpr hout)]

/-- Every denominator of the Cox–de Boor recurrence at a valid cell index is
positive (difference of two knots at least one interior cell apart). -/
theorem eval_basis_denom_pos {s : NUB} (hfull : KnotsNondecreasing s)
    (hs : InteriorStrict s) (hnp : 2 ≤ s.breaks.length) {icell : ℤ}
    (h0 : 0 ≤ icell) (h1 : icell ≤ (ncells s : ℤ) - 1) (x : ℚ) {j p : ℕ}
    (hj : j < s.D) (hp : p ≤ j) :
    0 < (get_knot s (icell + p + 1) - x) +
      (x - get_knot s (icell - ((j - p : ℕ) : ℤ))) := by
  have hnc : 1 ≤ ncells s := by
    have : ncells s = s.breaks.length - 1 := rfl
    omega
  have e : (get_knot s (icell + p + 1) - x) +
      (x - get_knot s (icell - ((j - p : ℕ) : ℤ))) =
      get_knot s (icell + p + 1) - get_knot s (icell - ((j - p : ℕ) : ℤ)) := by
    ring
  rw [e, sub_pos]
  have hlow : get_knot s (icell - ((j - p : ℕ) : ℤ)) ≤ get_knot s icell :=
    get_knot_mono hfull hnp (by omega) (by omega) (by omega)
  have hmid : get_knot s icell < get_knot s (icell + 1) := by
    have := interior_strict_chain hs (a := icell.toNat) (b := icell.toNat + 1)
      (Nat.lt_succ_self _) (by omega)
    have hc : ((icell.toNat : ℕ) : ℤ) = icell := by omega
    rw [hc] at this
    have hc2 : ((icell.toNat + 1 : ℕ) : ℤ) = icell + 1 := by omega
    rw [hc2] at this
    exact this
  have hupp : get_knot s (icell + 1) ≤ get_knot s (icell + p + 1) :=
    get_knot_mono hfull hnp (by omega) (by omega) (by omega)
  exact lt_of_le_of_lt hlow (lt_of_lt_of_le hmid hupp)

/-- Claim **C1 (amended)**: on any coordinate of the domain, `eval_basis` succeeds
and writes exactly `degree + 1` values which sum to 1 (partition of unity);
at an interior knot some of these values are zero, so "nonzero" holds only
for the values of the basis functions whose support covers the cell, not
pointwise for every written value. -/
theorem C1_partition_of_unity (s : NUB) (x : ℚ)
    (hfull : KnotsNondecreasing s) (hs : InteriorStrict s)
    (hnp : 2 ≤ s.breaks.length) (h1 : rmin s ≤ x) (h2 : x ≤ rmax s) :
    ∃ vals : List ℚ, eval_basis s x = some (find_cell s x, vals) ∧
      vals.length = s.D + 1 ∧ vals.sum = 1 := by
  obtain ⟨ha, hb, hc, hd⟩ := find_cell_spec hs hnp h1 h2
  refine ⟨eval_basis_values s (find_cell s x) x, ?_, ?_, ?_⟩
  · unfold eval_basis
    rw [if_neg (not_not_intro h1), if_neg (not_not_intro h2),
      if_neg (not_not_intro ha), if_neg (not_not_intro hb),
      if_neg (not_not_intro hc), if_neg (not_not_intro hd)]
  · exact cdbOuter_length _ _ _
  · refine cdbOuter_sum _ _ _ (fun j hj p hp => ?_)
    exact ne_of_gt (eval_basis_denom_pos hfull hs hnp ha hb x hj hp)

/-- Concrete basis used for counterexamples and witnesses: degree 1,
periodic, break points `0, 1, 2`. -/
def nubCex : NUB := ⟨1, true, [0, 1, 2]⟩

/-- Claim **C1 (counterexample)**: at the interior knot `x = 1` of `nubCex`
(degree 1), `eval_basis` writes the two values `[1, 0]`: they sum to 1 but
one of them is zero, refuting "writes exactly degree+1 *nonzero* values". -/
theorem C1_counterexample :
    eval_basis nubCex 1 = some (1, [1, 0]) ∧
      ¬ (∀ v ∈ [(1 : ℚ), 0], v ≠ 0) := by
  constructor
  · with_unfolding_all decide
  · intro h
    exact h 0 (by simp) rfl

/-! ## `integrals` -/

/-- Source `get_first_support_knot(ix)`: the knot stored at position `ix.uid()` of
the knot vector (i.e. `get_knot(ix - degree)`). -/
def get_first_support_knot (s : NUB) (ix : ℕ) : ℚ := (knots s).getD ix 0

/-- Source `get_last_support_knot(ix)`: the knot stored at position
`ix.uid() + degree + 1` of the knot vector. -/
def get_last_support_knot (s : NUB) (ix : ℕ) : ℚ :=
  (knots s).getD (ix + s.D + 1) 0

/-- Main loop of `integrals`: over
`dom_bsplines = full_domain().take_first(nbasis)`,
`int_vals(ix) = (get_last_support_knot(ix) - get_first_support_knot(ix)) * inv_deg`. -/
def integralsMain (s : NUB) (iv : List ℚ) : List ℚ :=
  setFold (fun ix => ix)
    (fun ix => (get_last_support_knot s ix - get_first_support_knot s ix) *
      (1 / ((s.D : ℚ) + 1)))
    (nbasis s) iv

/-- Periodic wrap loop of `integrals`: over
`dom_bsplines_wrap = full_domain().take_last(degree)`, `int_vals(ix) = 0`. -/
def integralsWrap (s : NUB) (iv : List ℚ) : List ℚ :=
  setFold (fun i => (nubSize s - s.D) + i) (fun _ => 0) s.D iv

/-- Source `NonUniformBSplines::Impl::integrals`.  The size `assert`s are embedded
as `Option` guards; the wrap loop runs only when the chunk covers the full
(periodic) spline domain, as in the source. -/
def integrals (s : NUB) (iv : List ℚ) : Option (List ℚ) :=
  if s.periodic then
    if iv.length = nbasis s ∨ iv.length = nubSize s then
      let iv1 := integralsMain s iv
      if iv1.length = nubSize s then some (integralsWrap s iv1) else some iv1
    else none
  else
    if iv.length = nbasis s then some (integralsMain s iv) else none

theorem integralsMain_getD (s : NUB) (iv : List ℚ) {ix : ℕ}
    (hix : ix < nbasis s) (hlen : nbasis s ≤ iv.length) :
    (integralsMain s iv).getD ix 0 =
      (get_last_support_knot s ix - get_first_support_knot s ix) *
        (1 / ((s.D : ℚ) + 1)) := by
  unfold integralsMain
  exact setFold_getD_written hix rfl (by omega) (fun i' h1 h2 => by omega) 0

/-- Claim **C7**: `integrals` sets `int_vals(ix)` to
`(last_support_knot - first_support_knot) / (degree + 1)` for every basis
index `ix < nbasis`, and in the periodic case (with the chunk covering the
full spline domain) the extra `degree` periodic-duplicate entries beyond
`nbasis` are set to zero. -/
theorem C7_integrals (s : NUB) (iv : List ℚ) :
    (s.periodic = true → iv.length = nubSize s →
      ∃ out, integrals s iv = some out ∧
        (∀ ix, ix < nbasis s → out.getD ix 0 =
          (get_last_support_knot s ix - get_first_support_knot s ix) /
            ((s.D : ℚ) + 1)) ∧
        (∀ i, nbasis s ≤ i → i < nubSize s → out.getD i 0 = 0)) ∧
    (iv.length = nbasis s →
      ∃ out, integrals s iv = some out ∧
        ∀ ix, ix < nbasis s → out.getD ix 0 =
          (get_last_support_knot s ix - get_first_support_knot s ix) /
            ((s.D : ℚ) + 1)) := by
  have hsize : nbasis s ≤ nubSize s := by
    unfold nbasis nubSize
    by_cases hp : s.periodic
    · simp [hp]
    · simp [hp]
      omega
  constructor
  · intro hp hlen
    have hwrap : nubSize s - s.D = nbasis s := by
      unfold nbasis nubSize
      simp [hp]
    refine ⟨integralsWrap s (integralsMain s iv), ?_, ?_, ?_⟩
    · unfold integrals
      rw [if_pos hp, if_pos (Or.inr hlen),
        if_pos (by rw [integralsMain, setFold_length, hlen])]
    · intro ix hix
      have huntouched : (integralsWrap s (integralsMain s iv)).getD ix 0 =
          (integralsMain s iv).getD ix 0 := by
        unfold integralsWrap
        exact setFold_getD_untouched (fun i hi => by omega) 0
      rw [huntouched, integralsMain_getD s iv hix (by omega), mul_one_div]
    · intro i h1 h2
      unfold integralsWrap
      exact setFold_getD_written (i := i - nbasis s) (by omega) (by omega)
        (by rw [integralsMain, setFold_length]; omega)
        (fun i' hlt hup => by omega) 0
  · intro hlen
    refine ⟨integralsMain s iv, ?_, ?_⟩
    · unfold integrals
      by_cases hp : s.periodic
      · rw [if_pos hp, if_pos (Or.inl hlen)]
        by_cases hfull : (integralsMain s iv).length = nubSize s
        · rw [if_pos hfull]
          -- a chunk of size `nbasis` covers the full domain only when
          -- `nbasis = size`; then the wrap loop is empty
          have hD : s.D = 0 := by
            rw [integralsMain, setFold_length, hlen] at hfull
            unfold nbasis nubSize at hfull
            simp [hp] at hfull
            omega
          unfold integralsWrap
          rw [hD]
          rfl
        · rw [if_neg hfull]
      · rw [if_neg hp, if_pos hlen]
    · intro ix hix
      rw [integralsMain_getD s iv hix (by omega), mul_one_div]

/-! ## Periodic coefficient duplication in `SplineBuilder::operator()` -/

/-- The final loop of the `ddc_splines_periodic_rows_duplicate_rhs` kernel:
`for (i = 0; i < degree; ++i) spline(nbasis + i) = spline(i);`. -/
def dupLoop (nb d : ℕ) (l : List ℚ) : List ℚ :=
  (List.range d).foldl (fun acc i => acc.set (nb + i) (acc.getD i 0)) l

theorem dupLoop_succ (nb d : ℕ) (l : List ℚ) :
    dupLoop nb (d + 1) l =
      (dupLoop nb d l).set (nb + d) ((dupLoop nb d l).getD d 0) := by
  unfold dupLoop
  rw [List.range_succ, List.foldl_append]
  rfl

theorem dupLoop_length (nb d : ℕ) (l : List ℚ) :
    (dupLoop nb d l).length = l.length := by
  induction d with
  | zero => rfl
  | succ d ih => rw [dupLoop_succ, List.length_set, ih]

/-- Any list that a store-only loop produces keeps its length. -/
theorem foldl_set_length (g : List ℚ → ℕ → ℕ) (v : List ℚ → ℕ → ℚ) (n : ℕ)
    (l : List ℚ) :
    ((List.range n).foldl (fun acc i => acc.set (g acc i) (v acc i)) l).length
      = l.length := by
  induction n with
  | zero => rfl
  | succ n ih =>
    rw [List.range_succ, List.foldl_append]
    show (List.set _ _ _).length = _
    rw [List.length_set, ih]

/-- After the duplication loop, the upper wraparound slot `nb + i` holds the
same value as slot `i`, for every `i < d`. -/
theorem dupLoop_getD (nb d : ℕ) (l : List ℚ) (hlen : nb + d ≤ l.length) :
    ∀ i, i < d → (dupLoop nb d l).getD (nb + i) 0 = (dupLoop nb d l).getD i 0 := by
  induction d with
  | zero => intro i hi; omega
  | succ d ih =>
    intro i hi
    have hlenL : (dupLoop nb d l).length = l.length := dupLoop_length nb d l
    rw [dupLoop_succ]
    rcases Nat.lt_or_ge i d with hid | hid
    · rw [getD_set_ne (by omega), getD_set_ne (by omega), ih (by omega) i hid]
    · have hieq : i = d := by omega
      subst hieq
      rw [getD_set_self (by omega)]
      by_cases hnb : nb = 0
      · subst hnb
        simp only [Nat.zero_add]
        rw [getD_set_self (by omega)]
      · rw [getD_set_ne (by omega)]

/-- Body of the `ddc_splines_periodic_rows_duplicate_rhs` kernel at the end
of `SplineBuilder::operator()`, acting on one batch column `j` of the spline
coefficient buffer (columns are fully independent). -/
def periodic_rows_duplicate (nb offset deg : ℕ) (spline : List ℚ) : List ℚ :=
  let spline1 :=
    if offset ≠ 0 then
      let s1 := (List.range offset).foldl
        (fun acc i => acc.set i (acc.getD (nb + i) 0)) spline
      (List.range (deg - offset)).foldl
        (fun acc i0 => acc.set (nb + (offset + i0)) (acc.getD (offset + i0) 0)) s1
    else spline
  dupLoop nb deg spline1

/-- Claim **C2**: after `SplineBuilder::operator()` returns on a periodic basis,
the coefficient array satisfies `spline[i] = spline[nbasis + i]` for every
`i < degree` on every batch column (the duplication kernel is the last write
to the buffer, and its final loop establishes the equalities regardless of
the preceding solver output). -/
theorem C2_periodic_duplication (nb offset deg : ℕ) (spline : List ℚ)
    (hlen : nb + deg ≤ spline.length) :
    ∀ i, i < deg →
      (periodic_rows_duplicate nb offset deg spline).getD i 0 =
        (periodic_rows_duplicate nb offset deg spline).getD (nb + i) 0 := by
  intro i hi
  unfold periodic_rows_duplicate
  by_cases hoff : offset ≠ 0
  · rw [if_pos hoff]
    refine (dupLoop_getD nb deg _ ?_ i hi).symm
    rw [foldl_set_length, foldl_set_length]
    exact hlen
  · rw [if_neg hoff]
    exact (dupLoop_getD nb deg spline hlen i hi).symm

/-! ## `SplineBuilder` block-size computation

`ddc::BoundCond` is declared in `spline_boundary_conditions.hpp`, which is
not among the sources.  Modelled from the spec: the boundary-condition
policy has exactly the enumerators PERIODIC / HERMITE / GREVILLE, embedded
as distinct integers — a C++ enum object may carry a value outside the
enumerator list, which is exactly what the `default:` branches of the
`switch` statements guard against. -/

def BC_PERIODIC : ℤ := 0

def BC_HERMITE : ℤ := 1

def BC_GREVILLE : ℤ := 2

/-- Source `SplineBuilder::compute_block_sizes_uniform`.  The two `switch`
statements compute `upper_block_size` from `BcLower` and `lower_block_size`
from `BcUpper`; `throw std::runtime_error("ddc::BoundCond not handled")` is
embedded as `Except.error`.  `s_nbc_xmin`/`s_nbc_xmax` (degree-dependent
constants from the boundary-condition policy) are passed as parameters.
Returns `(lower_block_size, upper_block_size)`. -/
def compute_block_sizes_uniform (D nbc_xmin nbc_xmax : ℕ)
    (bcLower bcUpper : ℤ) : Except String (ℤ × ℤ) := do
  let upper_block_size ←
    if bcLower = BC_PERIODIC then pure ((D : ℤ) / 2)
    else if bcLower = BC_HERMITE then pure (nbc_xmin : ℤ)
    else if bcLower = BC_GREVILLE then pure ((D : ℤ) - 1)
    else Except.error "ddc::BoundCond not handled"
  let lower_block_size ←
    if bcUpper = BC_PERIODIC then pure ((D : ℤ) / 2)
    else if bcUpper = BC_HERMITE then pure (nbc_xmax : ℤ)
    else if bcUpper = BC_GREVILLE then pure ((D : ℤ) - 1)
    else Except.error "ddc::BoundCond not handled"
  pure (lower_block_size, upper_block_size)

/-- Source `SplineBuilder::compute_block_sizes_non_uniform`. -/
def compute_block_sizes_non_uniform (D nbc_xmin nbc_xmax : ℕ)
    (bcLower bcUpper : ℤ) : Except String (ℤ × ℤ) := do
  let upper_block_size ←
    if bcLower = BC_PERIODIC then pure ((D : ℤ) - 1)
    else if bcLower = BC_HERMITE then pure ((nbc_xmin : ℤ) + 1)
    else if bcLower = BC_GREVILLE then pure ((D : ℤ) - 1)
    else Except.error "ddc::BoundCond not handled"
  let lower_block_size ←
    if bcUpper = BC_PERIODIC then pure ((D : ℤ) - 1)
    else if bcUpper = BC_HERMITE then pure ((nbc_xmax : ℤ) + 1)
    else if bcUpper = BC_GREVILLE then pure ((D : ℤ) - 1)
    else Except.error "ddc::BoundCond not handled"
  pure (lower_block_size, upper_block_size)

/-- Claim **C9**: an unsupported boundary-condition value (not PERIODIC, HERMITE
or GREVILLE) reaching either block-size computation makes it fail with the
locally raised error `"ddc::BoundCond not handled"` instead of producing
block sizes. -/
theorem C9_unsupported_boundcond (D nbc_xmin nbc_xmax : ℕ) (bcL bcU : ℤ)
    (h : (bcL ≠ BC_PERIODIC ∧ bcL ≠ BC_HERMITE ∧ bcL ≠ BC_GREVILLE) ∨
      (bcU ≠ BC_PERIODIC ∧ bcU ≠ BC_HERMITE ∧ bcU ≠ BC_GREVILLE)) :
    compute_block_sizes_uniform D nbc_xmin nbc_xmax bcL bcU =
      Except.error "ddc::BoundCond not handled" ∧
    compute_block_sizes_non_uniform D nbc_xmin nbc_xmax bcL bcU =
      Except.error "ddc::BoundCond not handled" := by
  rcases h with ⟨h1, h2, h3⟩ | ⟨h1, h2, h3⟩
  · constructor <;>
      simp [compute_block_sizes_uniform, compute_block_sizes_non_uniform,
        if_neg h1, if_neg h2, if_neg h3, Bind.bind, Except.bind]
  · constructor <;>
      (rcases em (bcL = BC_PERIODIC) with c1 | c1 <;>
        rcases em (bcL = BC_HERMITE) with c2 | c2 <;>
        rcases em (bcL = BC_GREVILLE) with c3 | c3 <;>
        simp [compute_block_sizes_uniform, compute_block_sizes_non_uniform,
          c1, c2, c3, if_neg h1, if_neg h2, if_neg h3, Bind.bind,
          Except.bind] <;>
        rfl)

/-! ## `SplinesLinearProblem2x2Blocks` (Schur-complement block solver)

Embedding over `Matrix (Fin _) (Fin _) ℚ`.  The sub-blocks behave through
the abstract `SplinesLinearProblem` contract: after `setup_solver` has been
called on a block, its `solve` overwrites a right-hand side with the exact
solution of the block's linear system.  The source of the concrete sub-solvers
(`SplinesLinearProblemDense`, band, sparse — opaque numeric primitives in the
specification) is not among the sources, so their `solve` is modelled from
the spec as multiplication by the inverse matrix; `KokkosBlas::gemm`
(`y ← β·y + α·A·x`) is likewise embedded through its contract as matrix
multiply-accumulate.  The `Unfactorized → Factorized` protocol state is
carried as a `Bool` per block: `solve` on an unfactorized block is an error
(`none`).
-/

/-- Computable matrix inverse over `ℚ` (`det⁻¹ • adjugate`); agrees with
Mathlib's noncomputable `Matrix.inv` (proved below). -/
def matInv {ι : Type} [Fintype ι] [DecidableEq ι] (A : Matrix ι ι ℚ) :
    Matrix ι ι ℚ :=
  A.det⁻¹ • A.adjugate

theorem matInv_eq {ι : Type} [Fintype ι] [DecidableEq ι] (A : Matrix ι ι ℚ) :
    matInv A = A⁻¹ := by
  rw [Matrix.inv_def, Ring.inverse_eq_inv]
  rfl

/-- Modelled from the spec: the `solve` contract of an opaque factorized
linear-problem block (dense/band LU or converged iterative solve) — the
right-hand side is overwritten with the exact solution; calling `solve`
before `setup_solver` violates the protocol (`none`). -/
def blockSolve {n m : ℕ} (A : Matrix (Fin n) (Fin n) ℚ) (fact : Bool)
    (B : Matrix (Fin n) (Fin m) ℚ) : Option (Matrix (Fin n) (Fin m) ℚ) :=
  if fact then some (matInv A * B) else none

/-- The four blocks (and per-block factorization state) of
`SplinesLinearProblem2x2Blocks`: `m_top_left_block` (`Q`),
`m_top_right_block` (`gamma`), `m_bottom_left_block` (`lambda`),
`m_bottom_right_block` (`delta`). -/
structure Blocks2x2 (nq nd : ℕ) where
  Q : Matrix (Fin nq) (Fin nq) ℚ
  qFact : Bool
  tr : Matrix (Fin nq) (Fin nd) ℚ
  bl : Matrix (Fin nd) (Fin nq) ℚ
  br : Matrix (Fin nd) (Fin nd) ℚ
  brFact : Bool

/-- Source `SplinesLinearProblem2x2Blocks::compute_schur_complement`: the nested
loop over `(i, j)` with the inner reduction
`val += m_bottom_left_block(i, l) * m_top_right_block(l, j)` and the store
`set_element(i, j, get_element(i, j) - val)`. -/
def compute_schur_complement {nq nd : ℕ} (bl : Matrix (Fin nd) (Fin nq) ℚ)
    (tr : Matrix (Fin nq) (Fin nd) ℚ) (br : Matrix (Fin nd) (Fin nd) ℚ) :
    Matrix (Fin nd) (Fin nd) ℚ :=
  Matrix.of fun i j => br i j - ∑ l, bl i l * tr l j

/-- The reduction loop of `compute_schur_complement` is the dense matrix
multiply `lambda * (Q⁻¹ gamma)`. -/
theorem compute_schur_complement_eq {nq nd : ℕ}
    (bl : Matrix (Fin nd) (Fin nq) ℚ) (tr : Matrix (Fin nq) (Fin nd) ℚ)
    (br : Matrix (Fin nd) (Fin nd) ℚ) :
    compute_schur_complement bl tr br = br - bl * tr := by
  ext i j
  simp [compute_schur_complement, Matrix.mul_apply, Matrix.sub_apply]

/-- Source `SplinesLinearProblem2x2Blocks::setup_solver`:
1. factorize `Q`; 2. overwrite `gamma` with `Q⁻¹·gamma` by solving
`Q·X = gamma` in place; 3. replace `delta` by the Schur complement
`delta − lambda·(Q⁻¹·gamma)` (`compute_schur_complement`); 4. factorize the
resulting `delta`.  (The COO extractions `dense2coo` feeding the optional
sparse-multiply solve path copy `gamma`/`lambda` without modifying the four
blocks and are not part of the state transformation.) -/
def setup_solver {nq nd : ℕ} (st : Blocks2x2 nq nd) :
    Option (Blocks2x2 nq nd) := do
  let st1 := { st with qFact := true }
  let tr1 ← blockSolve st1.Q st1.qFact st1.tr
  let st2 := { st1 with tr := tr1 }
  let st3 := { st2 with br := compute_schur_complement st2.bl st2.tr st2.br }
  some { st3 with brFact := true }

/-- Row stacking: the inverse of taking the `b1`/`b2` sub-views of a
right-hand side. -/
def stack {nq nd m : ℕ} (x1 : Matrix (Fin nq) (Fin m) ℚ)
    (x2 : Matrix (Fin nd) (Fin m) ℚ) : Matrix (Fin nq ⊕ Fin nd) (Fin m) ℚ :=
  Matrix.of fun i j => Sum.elim (fun a => x1 a j) (fun a => x2 a j) i

/-- Source `SplinesLinearProblem2x2Blocks::solve` (non-transposed, gemm version —
the default compiled path):
`b1 = subview(b, [0, nq))`, `b2 = subview(b, [nq, size))`, then
1. `m_top_left_block->solve(b1)`;
2. `gemm("N","N", -1., bottom_left, b1, 1., b2)`;
3. `m_bottom_right_block->solve(b2)`;
4. `gemm("N","N", -1., top_right, b2, 1., b1)`. -/
def solve2x2 {nq nd m : ℕ} (st : Blocks2x2 nq nd)
    (b : Matrix (Fin nq ⊕ Fin nd) (Fin m) ℚ) :
    Option (Matrix (Fin nq ⊕ Fin nd) (Fin m) ℚ) := do
  let b1 : Matrix (Fin nq) (Fin m) ℚ := Matrix.of fun i j => b (Sum.inl i) j
  let b2 : Matrix (Fin nd) (Fin m) ℚ := Matrix.of fun i j => b (Sum.inr i) j
  let x1' ← blockSolve st.Q st.qFact b1
  let b2' := b2 - st.bl * x1'
  let x2 ← blockSolve st.br st.brFact b2'
  let x1 := x1' - st.tr * x2
  some (stack x1 x2)

/-- The logical `size × size` matrix held by the four blocks (the routing of
`get_element`/`set_element`, written with a sum index type). -/
def assemble {nq nd : ℕ} (st : Blocks2x2 nq nd) :
    Matrix (Fin nq ⊕ Fin nd) (Fin nq ⊕ Fin nd) ℚ :=
  Matrix.fromBlocks st.Q st.tr st.bl st.br

/-- Modelled from the spec: solving the fully assembled matrix directly with
the opaque dense LU primitive (`SplinesLinearProblemDense`, not among the
sources) overwrites the right-hand side with the exact solution `A⁻¹·b`. -/
def denseSolve {ι : Type} [Fintype ι] [DecidableEq ι] {m : ℕ}
    (A : Matrix ι ι ℚ) (b : Matrix ι (Fin m) ℚ) : Matrix ι (Fin m) ℚ :=
  matInv A * b

theorem fromBlocks_mul_stack {nq nd m : ℕ} (A : Matrix (Fin nq) (Fin nq) ℚ)
    (B : Matrix (Fin nq) (Fin nd) ℚ) (C : Matrix (Fin nd) (Fin nq) ℚ)
    (Dm : Matrix (Fin nd) (Fin nd) ℚ) (x1 : Matrix (Fin nq) (Fin m) ℚ)
    (x2 : Matrix (Fin nd) (Fin m) ℚ) :
    Matrix.fromBlocks A B C Dm * stack x1 x2 =
      stack (A * x1 + B * x2) (C * x1 + Dm * x2) := by
  ext i j
  cases i with
  | inl i =>
    simp [stack, Matrix.mul_apply, Fintype.sum_sum_type, Matrix.add_apply]
  | inr i =>
    simp [stack, Matrix.mul_apply, Fintype.sum_sum_type, Matrix.add_apply]

theorem stack_subviews {nq nd m : ℕ}
    (b : Matrix (Fin nq ⊕ Fin nd) (Fin m) ℚ) :
    stack (Matrix.of fun i j => b (Sum.inl i) j)
      (Matrix.of fun i j => b (Sum.inr i) j) = b := by
  ext i j
  cases i <;> rfl

/-- Claim **C4**: `setup_solver` factorizes `Q`, overwrites `gamma` with
`Q⁻¹·gamma` (i.e. the new top-right block solves `Q·X = gamma`), replaces
`delta` by the Schur complement `delta − lambda·(Q⁻¹·gamma)` computed by the
dense multiply of `compute_schur_complement`, and factorizes the resulting
`delta` — in that order: the gamma-solve succeeds only on the already
factorized `Q`, and the factorized bottom-right content is the Schur
complement, not the original `delta`. -/
theorem C4_setup_solver_steps {nq nd : ℕ} (st : Blocks2x2 nq nd)
    (hq : st.Q.det ≠ 0) :
    ∃ st', setup_solver st = some st' ∧
      st'.Q = st.Q ∧ st'.bl = st.bl ∧
      st'.qFact = true ∧ st'.brFact = true ∧
      st.Q * st'.tr = st.tr ∧
      st'.tr = matInv st.Q * st.tr ∧
      st'.br = st.br - st.bl * st'.tr := by
  refine ⟨⟨st.Q, true, matInv st.Q * st.tr, st.bl,
    compute_schur_complement st.bl (matInv st.Q * st.tr) st.br, true⟩,
    rfl, rfl, rfl, rfl, rfl, ?_, rfl, ?_⟩
  · rw [matInv_eq]
    exact Matrix.mul_nonsing_inv_cancel_left st.Q st.tr
      (isUnit_iff_ne_zero.mpr hq)
  · exact compute_schur_complement_eq _ _ _

/-- Claim **C3**: for every matrix assembled into the 2x2 block structure and
every multi-column right-hand side, factorizing with the Schur-complement
method and solving with the block forward/back substitution yields exactly
the solution of the fully assembled dense system (`A·x = b`, i.e.
`x = A⁻¹·b`), provided the interior block and the Schur complement are
nonsingular. -/
theorem C3_block_solve_equals_dense {nq nd m : ℕ} (st : Blocks2x2 nq nd)
    (b : Matrix (Fin nq ⊕ Fin nd) (Fin m) ℚ) (hq : st.Q.det ≠ 0)
    (hs : (st.br - st.bl * (matInv st.Q * st.tr)).det ≠ 0) :
    ∃ st' x, setup_solver st = some st' ∧ solve2x2 st' b = some x ∧
      assemble st * x = b ∧ x = denseSolve (assemble st) b := by
  have hqU : IsUnit st.Q.det := isUnit_iff_ne_zero.mpr hq
  have hsU : IsUnit (st.br - st.bl * (matInv st.Q * st.tr)).det :=
    isUnit_iff_ne_zero.mpr hs
  set G : Matrix (Fin nq) (Fin nd) ℚ := matInv st.Q * st.tr with hG
  set S : Matrix (Fin nd) (Fin nd) ℚ := st.br - st.bl * G with hS
  set st' : Blocks2x2 nq nd :=
    { Q := st.Q, qFact := true, tr := G, bl := st.bl, br := S,
      brFact := true } with hst'
  have hsetup : setup_solver st = some st' := by
    show some _ = some st'
    rw [hst']
    have : compute_schur_complement st.bl (matInv st.Q * st.tr) st.br = S := by
      rw [compute_schur_complement_eq, hS, hG]
    simp [this, hG]
  set b1 : Matrix (Fin nq) (Fin m) ℚ := Matrix.of fun i j => b (Sum.inl i) j
    with hb1
  set b2 : Matrix (Fin nd) (Fin m) ℚ := Matrix.of fun i j => b (Sum.inr i) j
    with hb2
  set x1' : Matrix (Fin nq) (Fin m) ℚ := matInv st.Q * b1 with hx1'
  set x2 : Matrix (Fin nd) (Fin m) ℚ := matInv S * (b2 - st.bl * x1') with hx2
  set x1 : Matrix (Fin nq) (Fin m) ℚ := x1' - G * x2 with hx1
  have hsolve : solve2x2 st' b = some (stack x1 x2) := by
    show some _ = some _
    rfl
  have hQG : st.Q * G = st.tr := by
    rw [hG, matInv_eq]
    exact Matrix.mul_nonsing_inv_cancel_left st.Q st.tr hqU
  have hQx1' : st.Q * x1' = b1 := by
    rw [hx1', matInv_eq]
    exact Matrix.mul_nonsing_inv_cancel_left st.Q b1 hqU
  have hSx2 : S * x2 = b2 - st.bl * x1' := by
    rw [hx2, matInv_eq]
    exact Matrix.mul_nonsing_inv_cancel_left S _ hsU
  have hAx : assemble st * stack x1 x2 = b := by
    unfold assemble
    rw [fromBlocks_mul_stack]
    have h1 : st.Q * x1 + st.tr * x2 = b1 := by
      rw [hx1, Matrix.mul_sub, hQx1', ← Matrix.mul_assoc, hQG]
      abel
    have h2 : st.bl * x1 + st.br * x2 = b2 := by
      rw [hx1, Matrix.mul_sub,
        show st.br = S + st.bl * G by rw [hS]; abel,
        Matrix.add_mul, hSx2, Matrix.mul_assoc st.bl G x2]
      abel
    rw [h1, h2]
    exact stack_subviews b
  refine ⟨st', stack x1 x2, hsetup, hsolve, hAx, ?_⟩
  have hdetA : IsUnit (assemble st).det := by
    haveI hQinv : Invertible st.Q := st.Q.invertibleOfIsUnitDet hqU
    unfold assemble
    rw [Matrix.det_fromBlocks₁₁, Matrix.invOf_eq_nonsing_inv, ← matInv_eq,
      Matrix.mul_assoc, ← hG, ← hS]
    exact hqU.mul hsU
  rw [denseSolve, matInv_eq, ← hAx,
    Matrix.nonsing_inv_mul_cancel_left _ _ hdetA]

/-! ## Required RHS rows and the solve frame property (`SplinesLinearProblem`)

`required_number_of_rhs_rows` and its default `impl_required_number_of_rhs_rows`
from the abstract base class (the only override among the sources is none:
`SplinesLinearProblem2x2Blocks` inherits the default).  For the frame
property, `solve` of the 2x2-blocks class is embedded once more at the level
of the raw right-hand-side buffer (`ℕ`-indexed rows), so that "rows beyond
`size()`" are expressible: the two `Kokkos::subview`s `b1`/`b2` become the
explicit row ranges `[0, nq)` and `[nq, nq+nd)`, and each of the four
operations of the gemm solve path is one update confined to its range.
`qi`/`si` stand for the solve operators of the factorized top-left and
bottom-right blocks (applying them is multiplication confined to the block's
own rows), `bl`/`tr` for the dense coupling blocks.
-/

def impl_required_number_of_rhs_rows (msize : ℕ) : ℕ := msize

/-- Source `SplinesLinearProblem::required_number_of_rhs_rows`, including its
`assert(nrows >= size())`. -/
def required_number_of_rhs_rows (msize : ℕ) : Option ℕ :=
  let nrows := impl_required_number_of_rhs_rows msize
  if msize ≤ nrows then some nrows else none

/-- Source `m_top_left_block->solve(b1)`: overwrite rows `[0, nq)`. -/
def rowsSolveTopLeft (nq : ℕ) (qi : ℕ → ℕ → ℚ) (b : ℕ → ℕ → ℚ) : ℕ → ℕ → ℚ :=
  fun i j => if i < nq then ∑ k ∈ Finset.range nq, qi i k * b k j else b i j

/-- Source `gemm("N","N", -1., bottom_left, b1, 1., b2)`: overwrite rows `[nq, nq+nd)`. -/
def rowsGemmBottomLeft (nq nd : ℕ) (bl : ℕ → ℕ → ℚ) (b : ℕ → ℕ → ℚ) :
    ℕ → ℕ → ℚ :=
  fun i j => if nq ≤ i ∧ i < nq + nd then
    b i j - ∑ k ∈ Finset.range nq, bl (i - nq) k * b k j else b i j

/-- Source `m_bottom_right_block->solve(b2)`: overwrite rows `[nq, nq+nd)`. -/
def rowsSolveBottomRight (nq nd : ℕ) (si : ℕ → ℕ → ℚ) (b : ℕ → ℕ → ℚ) :
    ℕ → ℕ → ℚ :=
  fun i j => if nq ≤ i ∧ i < nq + nd then
    ∑ k ∈ Finset.range nd, si (i - nq) k * b (nq + k) j else b i j

/-- Source `gemm("N","N", -1., top_right, b2, 1., b1)`: overwrite rows `[0, nq)`. -/
def rowsGemmTopRight (nq nd : ℕ) (tr : ℕ → ℕ → ℚ) (b : ℕ → ℕ → ℚ) :
    ℕ → ℕ → ℚ :=
  fun i j => if i < nq then
    b i j - ∑ k ∈ Finset.range nd, tr i k * b (nq + k) j else b i j

/-- Source `SplinesLinearProblem2x2Blocks::solve` on the raw buffer, with its
`assert(b.extent(0) == size())`. -/
def solve2x2_rows (nq nd : ℕ) (qi bl tr si : ℕ → ℕ → ℚ) (nrows : ℕ)
    (b : ℕ → ℕ → ℚ) : Option (ℕ → ℕ → ℚ) :=
  if nrows = nq + nd then
    some (rowsGemmTopRight nq nd tr (rowsSolveBottomRight nq nd si
      (rowsGemmBottomLeft nq nd bl (rowsSolveTopLeft nq qi b))))
  else none

/-- Claim **C8**: `required_number_of_rhs_rows() ≥ size()` always holds (the base
implementation returns `size()` and the accessor asserts the inequality),
and `solve` neither writes rows of the right-hand-side buffer beyond
`size()` nor reads them: rows `≥ size()` come out unchanged, and the first
`size()` rows of the result depend only on the first `size()` rows of the
input. -/
theorem C8_required_rows_and_frame (nq nd msize : ℕ)
    (qi bl tr si : ℕ → ℕ → ℚ) (b b' r r' : ℕ → ℕ → ℚ)
    (hr : solve2x2_rows nq nd qi bl tr si (nq + nd) b = some r)
    (hr' : solve2x2_rows nq nd qi bl tr si (nq + nd) b' = some r')
    (hagree : ∀ i j, i < nq + nd → b i j = b' i j) :
    (∃ n, required_number_of_rhs_rows msize = some n ∧ msize ≤ n) ∧
    (∀ i j, nq + nd ≤ i → r i j = b i j) ∧
    (∀ i j, i < nq + nd → r i j = r' i j) := by
  have hsome := hr
  rw [solve2x2_rows, if_pos rfl, Option.some.injEq] at hsome
  have hsome' := hr'
  rw [solve2x2_rows, if_pos rfl, Option.some.injEq] at hsome'
  subst hsome
  subst hsome'
  refine ⟨⟨msize,
    (by simp [required_number_of_rhs_rows, impl_required_number_of_rhs_rows]),
    le_rfl⟩, ?_, ?_⟩
  · -- rows at or beyond `size` pass through all four stages unchanged
    intro i j hi
    unfold rowsGemmTopRight rowsSolveBottomRight rowsGemmBottomLeft
      rowsSolveTopLeft
    rw [if_neg (by omega), if_neg (by omega), if_neg (by omega),
      if_neg (by omega)]
  · -- the first `size` rows only ever read rows `< size` of the input
    intro i j hi
    have h1 : ∀ i j, i < nq + nd →
        rowsSolveTopLeft nq qi b i j = rowsSolveTopLeft nq qi b' i j := by
      intro i j hi
      unfold rowsSolveTopLeft
      by_cases hq : i < nq
      · rw [if_pos hq, if_pos hq]
        exact Finset.sum_congr rfl (fun k hk => by
          rw [hagree k j (by simp at hk; omega)])
      · rw [if_neg hq, if_neg hq, hagree i j hi]
    have h2 : ∀ i j, i < nq + nd →
        rowsGemmBottomLeft nq nd bl (rowsSolveTopLeft nq qi b) i j =
          rowsGemmBottomLeft nq nd bl (rowsSolveTopLeft nq qi b') i j := by
      intro i j hi
      unfold rowsGemmBottomLeft
      by_cases hc : nq ≤ i ∧ i < nq + nd
      · rw [if_pos hc, if_pos hc, h1 i j hi]
        congr 1
        exact Finset.sum_congr rfl (fun k hk => by
          rw [h1 k j (by simp at hk; omega)])
      · rw [if_neg hc, if_neg hc, h1 i j hi]
    have h3 : ∀ i j, i < nq + nd →
        rowsSolveBottomRight nq nd si (rowsGemmBottomLeft nq nd bl
          (rowsSolveTopLeft nq qi b)) i j =
        rowsSolveBottomRight nq nd si (rowsGemmBottomLeft nq nd bl
          (rowsSolveTopLeft nq qi b')) i j := by
      intro i j hi
      unfold rowsSolveBottomRight
      by_cases hc : nq ≤ i ∧ i < nq + nd
      · rw [if_pos hc, if_pos hc]
        exact Finset.sum_congr rfl (fun k hk => by
          rw [h2 (nq + k) j (by simp at hk; omega)])
      · rw [if_neg hc, if_neg hc, h2 i j hi]
    unfold rowsGemmTopRight
    by_cases hq : i < nq
    · rw [if_pos hq, if_pos hq, h3 i j hi]
      congr 1
      exact Finset.sum_congr rfl (fun k hk => by
        rw [h3 (nq + k) j (by simp at hk; omega)])
    · rw [if_neg hq, if_neg hq, h3 i j hi]

/-! ## Element routing of `SplinesLinearProblem2x2Blocks` (pre-factorization)

`get_element`/`set_element` route a logical index pair `(i, j)` of the
`size × size` matrix to one of the four blocks, partitioned at
`nq = m_top_left_block->size()`.  The sub-block storages are embedded as
plain index-to-value maps: the top-left block is an abstract
`SplinesLinearProblem` and the bottom-right block a
`SplinesLinearProblemDense` (not among the sources); modelled from the spec,
their pre-factorization `get_element`/`set_element` behave as reads/writes
of a private dense storage, i.e. point updates of the map. -/

structure Storage2x2 (nq nd : ℕ) where
  tl : ℕ → ℕ → ℚ
  tr : ℕ → ℕ → ℚ
  bl : ℕ → ℕ → ℚ
  br : ℕ → ℕ → ℚ

/-- Point update of a sub-block storage. -/
def upd2 (f : ℕ → ℕ → ℚ) (a b : ℕ) (v : ℚ) : ℕ → ℕ → ℚ :=
  fun i j => if i = a ∧ j = b then v else f i j

/-- Source `SplinesLinearProblem2x2Blocks::get_element` with its
`assert(i < size()); assert(j < size())`. -/
def get_element {nq nd : ℕ} (st : Storage2x2 nq nd) (i j : ℕ) : Option ℚ :=
  if i < nq + nd then
    if j < nq + nd then
      some (if i < nq ∧ j < nq then st.tl i j
        else if nq ≤ i ∧ nq ≤ j then st.br (i - nq) (j - nq)
        else if nq ≤ j then st.tr i (j - nq)
        else st.bl (i - nq) j)
    else none
  else none

/-- Source `SplinesLinearProblem2x2Blocks::set_element` with its size `assert`s. -/
def set_element {nq nd : ℕ} (st : Storage2x2 nq nd) (i j : ℕ) (v : ℚ) :
    Option (Storage2x2 nq nd) :=
  if i < nq + nd then
    if j < nq + nd then
      some (if i < nq ∧ j < nq then { st with tl := upd2 st.tl i j v }
        else if nq ≤ i ∧ nq ≤ j then
          { st with br := upd2 st.br (i - nq) (j - nq) v }
        else if nq ≤ j then { st with tr := upd2 st.tr i (j - nq) v }
        else { st with bl := upd2 st.bl (i - nq) j v })
    else none
  else none

theorem get_element_in {nq nd : ℕ} (st : Storage2x2 nq nd) {i j : ℕ}
    (hi : i < nq + nd) (hj : j < nq + nd) :
    get_element st i j =
      some (if i < nq ∧ j < nq then st.tl i j
        else if nq ≤ i ∧ nq ≤ j then st.br (i - nq) (j - nq)
        else if nq ≤ j then st.tr i (j - nq)
        else st.bl (i - nq) j) := by
  rw [get_element, if_pos hi, if_pos hj]

/-- Claim **C10**: before `setup_solver`, the four blocks behave as one logical
`size × size` matrix: `get_element` right after `set_element (i, j, v)`
returns `v`, a `set_element` at `(i, j)` leaves every other in-range entry
unchanged, and indices are routed to the four blocks by the partition at
`nq = m_top_left_block->size()`. -/
theorem C10_element_routing {nq nd : ℕ} (st : Storage2x2 nq nd) (i j : ℕ)
    (v : ℚ) (hi : i < nq + nd) (hj : j < nq + nd) :
    ∃ st', set_element st i j v = some st' ∧
      get_element st' i j = some v ∧
      (∀ i' j', i' < nq + nd → j' < nq + nd → (i', j') ≠ (i, j) →
        get_element st' i' j' = get_element st i' j') ∧
      (i < nq → j < nq → get_element st i j = some (st.tl i j)) ∧
      (nq ≤ i → nq ≤ j → get_element st i j = some (st.br (i - nq) (j - nq))) ∧
      (i < nq → nq ≤ j → get_element st i j = some (st.tr i (j - nq))) ∧
      (nq ≤ i → j < nq → get_element st i j = some (st.bl (i - nq) j)) := by
  have hroute1 : i < nq → j < nq → get_element st i j = some (st.tl i j) := by
    intro h1 h2
    rw [get_element_in st hi hj, if_pos ⟨h1, h2⟩]
  have hroute2 : nq ≤ i → nq ≤ j →
      get_element st i j = some (st.br (i - nq) (j - nq)) := by
    intro h1 h2
    rw [get_element_in st hi hj, if_neg (by omega), if_pos ⟨h1, h2⟩]
  have hroute3 : i < nq → nq ≤ j →
      get_element st i j = some (st.tr i (j - nq)) := by
    intro h1 h2
    rw [get_element_in st hi hj, if_neg (by omega), if_neg (by omega),
      if_pos h2]
  have hroute4 : nq ≤ i → j < nq →
      get_element st i j = some (st.bl (i - nq) j) := by
    intro h1 h2
    rw [get_element_in st hi hj, if_neg (by omega), if_neg (by omega),
      if_neg (by omega)]
  rcases Nat.lt_or_ge i nq with hiq | hiq <;>
    rcases Nat.lt_or_ge j nq with hjq | hjq
  · -- top-left region
    refine ⟨{ st with tl := upd2 st.tl i j v }, ?_, ?_, ?_, hroute1, hroute2,
      hroute3, hroute4⟩
    · rw [set_element, if_pos hi, if_pos hj, if_pos ⟨hiq, hjq⟩]
    · rw [get_element_in _ hi hj, if_pos ⟨hiq, hjq⟩]
      simp [upd2]
    · intro i' j' hi' hj' hne
      rw [get_element_in _ hi' hj', get_element_in _ hi' hj']
      congr 1
      by_cases c1 : i' < nq ∧ j' < nq
      · rw [if_pos c1, if_pos c1]
        show upd2 st.tl i j v i' j' = st.tl i' j'
        rw [upd2, if_neg (by
          rintro ⟨rfl, rfl⟩
          exact hne rfl)]
      · rw [if_neg c1, if_neg c1]
  · -- top-right region (i < nq ≤ j)
    refine ⟨{ st with tr := upd2 st.tr i (j - nq) v }, ?_, ?_, ?_, hroute1,
      hroute2, hroute3, hroute4⟩
    · rw [set_element, if_pos hi, if_pos hj, if_neg (by omega),
        if_neg (by omega), if_pos hjq]
    · rw [get_element_in _ hi hj, if_neg (by omega), if_neg (by omega),
        if_pos hjq]
      simp [upd2]
    · intro i' j' hi' hj' hne
      rw [get_element_in _ hi' hj', get_element_in _ hi' hj']
      congr 1
      by_cases c1 : i' < nq ∧ j' < nq
      · rw [if_pos c1, if_pos c1]
      · rw [if_neg c1, if_neg c1]
        by_cases c2 : nq ≤ i' ∧ nq ≤ j'
        · rw [if_pos c2, if_pos c2]
        · rw [if_neg c2, if_neg c2]
          by_cases c3 : nq ≤ j'
          · rw [if_pos c3, if_pos c3]
            show upd2 st.tr i (j - nq) v i' (j' - nq) = st.tr i' (j' - nq)
            rw [upd2, if_neg (by
              rintro ⟨rfl, h⟩
              exact hne (by
                have hjj : j' = j := by omega
                rw [hjj]))]
          · rw [if_neg c3, if_neg c3]
  · -- bottom-left region (j < nq ≤ i)
    refine ⟨{ st with bl := upd2 st.bl (i - nq) j v }, ?_, ?_, ?_, hroute1,
      hroute2, hroute3, hroute4⟩
    · rw [set_element, if_pos hi, if_pos hj, if_neg (by omega),
        if_neg (by omega), if_neg (by omega)]
    · rw [get_element_in _ hi hj, if_neg (by omega), if_neg (by omega),
        if_neg (by omega)]
      simp [upd2]
    · intro i' j' hi' hj' hne
      rw [get_element_in _ hi' hj', get_element_in _ hi' hj']
      congr 1
      by_cases c1 : i' < nq ∧ j' < nq
      · rw [if_pos c1, if_pos c1]
      · rw [if_neg c1, if_neg c1]
        by_cases c2 : nq ≤ i' ∧ nq ≤ j'
        · rw [if_pos c2, if_pos c2]
        · rw [if_neg c2, if_neg c2]
          by_cases c3 : nq ≤ j'
          · rw [if_pos c3, if_pos c3]
          · rw [if_neg c3, if_neg c3]
            show upd2 st.bl (i - nq) j v (i' - nq) j' = st.bl (i' - nq) j'
            rw [upd2, if_neg (by
              rintro ⟨h, rfl⟩
              exact hne (by
                have hii : i' = i := by omega
                rw [hii]))]
  · -- bottom-right region (nq ≤ i, nq ≤ j)
    refine ⟨{ st with br := upd2 st.br (i - nq) (j - nq) v }, ?_, ?_, ?_,
      hroute1, hroute2, hroute3, hroute4⟩
    · rw [set_element, if_pos hi, if_pos hj, if_neg (by omega),
        if_pos ⟨hiq, hjq⟩]
    · rw [get_element_in _ hi hj, if_neg (by omega), if_pos ⟨hiq, hjq⟩]
      simp [upd2]
    · intro i' j' hi' hj' hne
      rw [get_element_in _ hi' hj', get_element_in _ hi' hj']
      congr 1
      by_cases c1 : i' < nq ∧ j' < nq
      · rw [if_pos c1, if_pos c1]
      · rw [if_neg c1, if_neg c1]
        by_cases c2 : nq ≤ i' ∧ nq ≤ j'
        · rw [if_pos c2, if_pos c2]
          show upd2 st.br (i - nq) (j - nq) v (i' - nq) (j' - nq) =
            st.br (i' - nq) (j' - nq)
          rw [upd2, if_neg (by
            rintro ⟨h1, h2⟩
            exact hne (by
              have hii : i' = i := by omega
              have hjj : j' = j := by omega
              rw [hii, hjj]))]
        · rw [if_neg c2, if_neg c2]

/-! ## Concrete instances and witnesses -/

/-- Concrete 2x2-block problem (`nq = nd = 1`). -/
def stCex : Blocks2x2 1 1 := ⟨!![2], false, !![1], !![1], !![1], false⟩

/-- Concrete two-row right-hand side. -/
def bCex : Matrix (Fin 1 ⊕ Fin 1) (Fin 1) ℚ := Matrix.of fun _ _ => 1

/-- Concrete sub-block solve operator / coupling block for the buffer-level
frame statement. -/
def qOne : ℕ → ℕ → ℚ := fun _ _ => 1

/-- Concrete right-hand-side buffer. -/
def bRamp : ℕ → ℕ → ℚ := fun i _ => (i : ℚ)

/-- The buffer produced by the gemm solve path on `bRamp`. -/
def rRamp : ℕ → ℕ → ℚ :=
  rowsGemmTopRight 1 1 qOne (rowsSolveBottomRight 1 1 qOne
    (rowsGemmBottomLeft 1 1 qOne (rowsSolveTopLeft 1 qOne bRamp)))

/-- Concrete pre-factorization 2x2 storage. -/
def st10 : Storage2x2 1 1 := ⟨fun _ _ => 0, fun _ _ => 0, fun _ _ => 0, fun _ _ => 0⟩

theorem C1_partition_of_unity_witness :
    ∃ vals : List ℚ,
      eval_basis nubCex (1 / 2) = some (find_cell nubCex (1 / 2), vals) ∧
      vals.length = nubCex.D + 1 ∧ vals.sum = 1 :=
  C1_partition_of_unity nubCex (1 / 2) (by with_unfolding_all decide)
    (by with_unfolding_all decide) (by with_unfolding_all decide)
    (by with_unfolding_all decide) (by with_unfolding_all decide)

theorem C2_periodic_duplication_witness :
    (periodic_rows_duplicate 2 1 1 [1, 2, 3]).getD 0 0 =
      (periodic_rows_duplicate 2 1 1 [1, 2, 3]).getD (2 + 0) 0 :=
  C2_periodic_duplication 2 1 1 [1, 2, 3] (by with_unfolding_all decide) 0
    (by decide)

theorem C3_block_solve_equals_dense_witness :
    ∃ st' x, setup_solver stCex = some st' ∧ solve2x2 st' bCex = some x ∧
      assemble stCex * x = bCex ∧ x = denseSolve (assemble stCex) bCex :=
  C3_block_solve_equals_dense stCex bCex
    (by norm_num [stCex, Matrix.det_fin_one_of])
    (by norm_num [stCex, matInv, Matrix.det_fin_one, Matrix.adjugate_fin_one,
      Matrix.mul_apply, Fin.sum_univ_one, Matrix.sub_apply, Matrix.smul_apply,
      Matrix.det_fin_one_of])

theorem C4_setup_solver_steps_witness :
    ∃ st', setup_solver stCex = some st' ∧
      st'.Q = stCex.Q ∧ st'.bl = stCex.bl ∧
      st'.qFact = true ∧ st'.brFact = true ∧
      stCex.Q * st'.tr = stCex.tr ∧
      st'.tr = matInv stCex.Q * stCex.tr ∧
      st'.br = stCex.br - stCex.bl * st'.tr :=
  C4_setup_solver_steps stCex (by norm_num [stCex, Matrix.det_fin_one_of])

theorem C5_find_cell_cells_witness :
    ((1 / 2 : ℚ) = rmin nubCex → find_cell nubCex (1 / 2) = 0) ∧
    ((1 / 2 : ℚ) = rmax nubCex →
      find_cell nubCex (1 / 2) = (ncells nubCex : ℤ) - 1) ∧
    (rmin nubCex < 1 / 2 → (1 / 2 : ℚ) < rmax nubCex →
      0 ≤ find_cell nubCex (1 / 2) ∧
      find_cell nubCex (1 / 2) ≤ (ncells nubCex : ℤ) - 1 ∧
      get_knot nubCex (find_cell nubCex (1 / 2)) ≤ 1 / 2 ∧
      (1 / 2 : ℚ) < get_knot nubCex (find_cell nubCex (1 / 2) + 1)) ∧
    (((1 / 2 : ℚ) < rmin nubCex ∨ rmax nubCex < 1 / 2) →
      find_cell nubCex (1 / 2) = -1 ∧ eval_basis nubCex (1 / 2) = none) :=
  C5_find_cell_cells nubCex (1 / 2) (by with_unfolding_all decide)
    (by with_unfolding_all decide)

theorem C6_constructor_padding_knots_witness :
    (nubCex.periodic = true → ∀ i : ℕ, 1 ≤ i → i ≤ nubCex.D →
      get_knot nubCex (-(i : ℤ)) =
          get_knot nubCex ((ncells nubCex : ℤ) - i) -
            (rmax nubCex - rmin nubCex) ∧
      get_knot nubCex ((ncells nubCex : ℤ) + i) =
          get_knot nubCex (i : ℤ) + (rmax nubCex - rmin nubCex)) ∧
    (nubCex.periodic = false → ∀ i : ℕ, 1 ≤ i → i ≤ nubCex.D →
      get_knot nubCex (-(i : ℤ)) = rmin nubCex ∧
      get_knot nubCex ((ncells nubCex : ℤ) + i) = rmax nubCex) :=
  C6_constructor_padding_knots nubCex (by with_unfolding_all decide)

theorem C7_integrals_witness :
    ∃ out, integrals nubCex [10, 20, 30] = some out ∧
      (∀ ix, ix < nbasis nubCex → out.getD ix 0 =
        (get_last_support_knot nubCex ix - get_first_support_knot nubCex ix) /
          ((nubCex.D : ℚ) + 1)) ∧
      (∀ i, nbasis nubCex ≤ i → i < nubSize nubCex → out.getD i 0 = 0) :=
  (C7_integrals nubCex [10, 20, 30]).1 rfl (by with_unfolding_all decide)

theorem C8_required_rows_and_frame_witness :
    (∃ n, required_number_of_rhs_rows 2 = some n ∧ 2 ≤ n) ∧
    (∀ i j, 1 + 1 ≤ i → rRamp i j = bRamp i j) ∧
    (∀ i j, i < 1 + 1 → rRamp i j = rRamp i j) :=
  C8_required_rows_and_frame 1 1 2 qOne qOne qOne qOne bRamp bRamp rRamp rRamp
    (by rw [solve2x2_rows, if_pos rfl]; rfl)
    (by rw [solve2x2_rows, if_pos rfl]; rfl)
    (fun i j _ => rfl)

theorem C9_unsupported_boundcond_witness :
    compute_block_sizes_uniform 3 1 1 5 0 =
      Except.error "ddc::BoundCond not handled" ∧
    compute_block_sizes_non_uniform 3 1 1 5 0 =
      Except.error "ddc::BoundCond not handled" :=
  C9_unsupported_boundcond 3 1 1 5 0
    (Or.inl ⟨by decide, by decide, by decide⟩)

theorem C10_element_routing_witness :
    ∃ st', set_element st10 0 1 7 = some st' ∧
      get_element st' 0 1 = some 7 ∧
      (∀ i' j', i' < 1 + 1 → j' < 1 + 1 → (i', j') ≠ (0, 1) →
        get_element st' i' j' = get_element st10 i' j') ∧
      ((0 : ℕ) < 1 → (1 : ℕ) < 1 → get_element st10 0 1 = some (st10.tl 0 1)) ∧
      (1 ≤ (0 : ℕ) → 1 ≤ (1 : ℕ) →
        get_element st10 0 1 = some (st10.br (0 - 1) (1 - 1))) ∧
      ((0 : ℕ) < 1 → 1 ≤ (1 : ℕ) →
        get_element st10 0 1 = some (st10.tr 0 (1 - 1))) ∧
      (1 ≤ (0 : ℕ) → (1 : ℕ) < 1 →
        get_element st10 0 1 = some (st10.bl (0 - 1) 1)) :=
  C10_element_routing st10 0 1 7 (by decide) (by decide)

end DDC
